import Mathlib

/-!
Verification development for the time-track parsing-and-normalization pipeline.

The JavaScript sources are shallowly embedded:
* strings are Lean `String`s manipulated through their `List Char` data;
  the embedding of Unicode-aware JS operations (`toLowerCase`,
  `\p{L}\p{N}` classes, `\s`) is restricted to their ASCII behaviour,
  which is the only behaviour the verified properties exercise;
* JS numbers are modelled as exact rationals (`ℚ`); the one place the
  code tests `Number.isFinite` on a value parsed from a nonnegative
  decimal literal is modelled by comparison with the IEEE-754 double
  overflow threshold `2^1024 - 2^970`;
* the file-system state of a run (per-day stores, error log, classifier
  cache, suggestion ledger) is threaded explicitly through a `RunState`;
* the two external collaborators (the `Intl` timezone projection and the
  Gemini HTTP call) are passed in as data/functions: a commit record
  carries the projected calendar date of its timestamp, and the
  classifier transport is a `Nat → Except String (Option RawLLM)`
  oracle indexed by the number of calls already issued.
-/

set_option maxRecDepth 16384

namespace TimeTrack

/-! ## Characters, whitespace, tokenization -/

/-- ASCII whitespace recognised by the JS `\s` class / `trim` (the model
restricts the Unicode class to its ASCII members). -/
def wsChar (c : Char) : Bool :=
  c = ' ' || c = '\t' || c = '\n' || c = '\r' || c = '\x0b' || c = '\x0c'

/-- `String.prototype.trim` on character lists. -/
def trimChars (l : List Char) : List Char :=
  ((l.dropWhile wsChar).reverse.dropWhile wsChar).reverse

/-- JS `String.prototype.trim`. -/
def jsTrim (s : String) : String := String.mk (trimChars s.data)

/-- ASCII restriction of JS `toLowerCase`. -/
def asciiToLower (c : Char) : Char :=
  if 'A' ≤ c ∧ c ≤ 'Z' then Char.ofNat (c.toNat + 32) else c

/-- Lowercase a whole string (ASCII model of `toLowerCase`). -/
def jsToLower (s : String) : String := String.mk (s.data.map asciiToLower)

/-- Split on a separator character; like JS `split(sep)` this always
returns at least one (possibly empty) piece. -/
def splitCharAux (sep : Char) : List Char → List Char → List (List Char)
  | [], acc => [acc.reverse]
  | c :: rest, acc =>
    if c = sep then acc.reverse :: splitCharAux sep rest []
    else splitCharAux sep rest (c :: acc)

/-- JS `split(/\s+/).filter(Boolean)`: the whitespace-separated words. -/
def wordsAux : List Char → List Char → List (List Char)
  | [], acc => if acc.isEmpty then [] else [acc.reverse]
  | c :: rest, acc =>
    if wsChar c then
      (if acc.isEmpty then wordsAux rest [] else acc.reverse :: wordsAux rest [])
    else wordsAux rest (c :: acc)

/-- Whitespace-separated tokens of a character list, as strings. -/
def splitWords (l : List Char) : List String := (wordsAux l []).map String.mk

/-- Join pieces with a separator list (JS `Array.prototype.join`). -/
def joinSep (sep : List Char) : List (List Char) → List Char
  | [] => []
  | [x] => x
  | x :: xs => x ++ sep ++ joinSep sep xs

/-- Remove one trailing carriage return, so that splitting on `'\n'` and
applying this models the JS `split(/\r?\n/)`. -/
def stripCR (l : List Char) : List Char :=
  match l.reverse with
  | '\r' :: rest => rest.reverse
  | _ => l

/-- `commit.body.split(/\r?\n/)`. -/
def splitLines (s : String) : List String :=
  (splitCharAux '\n' s.data []).map (fun l => String.mk (stripCR l))

/-! ## Decimal numerals

`String(n)` / `Number(digits)` for nonnegative integers, together with the
lemmas needed to show that a `YYYY-MM-DD`-shaped token survives the
parse-then-render round trip of the date resolver unchanged. -/

/-- Numeric value of a decimal digit character. -/
def digitVal (c : Char) : Nat := c.toNat - 48

/-- Accumulator form of the decimal value of a digit string (JS `Number`
on an all-digit string). -/
def digitsValAux : Nat → List Char → Nat
  | a, [] => a
  | a, c :: cs => digitsValAux (10 * a + digitVal c) cs

/-- Decimal value of a digit string. -/
def digitsVal (l : List Char) : Nat := digitsValAux 0 l

/-- Fuel-driven decimal rendering (structural, hence kernel-reducible). -/
def toDecGo : Nat → Nat → List Char → List Char
  | 0, n, acc => Char.ofNat (48 + n) :: acc
  | fuel + 1, n, acc =>
    if n < 10 then Char.ofNat (48 + n) :: acc
    else toDecGo fuel (n / 10) (Char.ofNat (48 + n % 10) :: acc)

/-- Decimal rendering of a natural number (JS `String(n)` for `n ≥ 0`). -/
def toDec (n : Nat) : List Char := toDecGo n n []

/-- JS `String(n)` on a natural number. -/
def natRepr (n : Nat) : String := String.mk (toDec n)

theorem digitsValAux_nil (a : Nat) : digitsValAux a [] = a := rfl

theorem digitsValAux_cons (a : Nat) (c : Char) (cs : List Char) :
    digitsValAux a (c :: cs) = digitsValAux (10 * a + digitVal c) cs := rfl

theorem toDecGo_zero (n : Nat) (acc : List Char) :
    toDecGo 0 n acc = Char.ofNat (48 + n) :: acc := rfl

theorem toDecGo_succ (f n : Nat) (acc : List Char) :
    toDecGo (f + 1) n acc =
      if n < 10 then Char.ofNat (48 + n) :: acc
      else toDecGo f (n / 10) (Char.ofNat (48 + n % 10) :: acc) := rfl

theorem digitsValAux_shift (l : List Char) :
    ∀ a : Nat, digitsValAux a l = a * 10 ^ l.length + digitsValAux 0 l := by
  induction l with
  | nil =>
    intro a
    show a = a * 10 ^ 0 + 0
    simp
  | cons c cs ih =>
    intro a
    show digitsValAux (10 * a + digitVal c) cs = _
    rw [ih (10 * a + digitVal c)]
    show _ = a * 10 ^ (cs.length + 1) + digitsValAux (10 * 0 + digitVal c) cs
    rw [ih (10 * 0 + digitVal c)]
    ring

theorem digitsVal_cons (c : Char) (cs : List Char) :
    digitsVal (c :: cs) = digitVal c * 10 ^ cs.length + digitsVal cs := by
  show digitsValAux (10 * 0 + digitVal c) cs = _
  rw [digitsValAux_shift cs (10 * 0 + digitVal c)]
  show (10 * 0 + digitVal c) * 10 ^ cs.length + digitsValAux 0 cs
    = digitVal c * 10 ^ cs.length + digitsValAux 0 cs
  ring

theorem digitsVal_snoc (l : List Char) (c : Char) :
    digitsVal (l ++ [c]) = 10 * digitsVal l + digitVal c := by
  induction l with
  | nil =>
    show 10 * 0 + digitVal c = 10 * 0 + digitVal c
    rfl
  | cons c' l' ih =>
    rw [List.cons_append, digitsVal_cons, digitsVal_cons, ih]
    simp only [List.length_append, List.length_singleton]
    ring

theorem digit_toNat_bounds {c : Char} (h : c.isDigit = true) :
    48 ≤ c.toNat ∧ c.toNat ≤ 57 := by
  simp only [Char.isDigit, Bool.and_eq_true, decide_eq_true_eq] at h
  exact ⟨h.1, h.2⟩

theorem digitVal_lt_ten {c : Char} (h : c.isDigit = true) : digitVal c < 10 := by
  have := digit_toNat_bounds h
  simp only [digitVal]
  omega

theorem digitsVal_lt : ∀ l : List Char, (∀ c ∈ l, c.isDigit = true) →
    digitsVal l < 10 ^ l.length := by
  intro l
  induction l with
  | nil =>
    intro _
    show (0 : Nat) < 10 ^ (0 : Nat)
    norm_num
  | cons c cs ih =>
    intro h
    rw [digitsVal_cons]
    have hc : digitVal c < 10 := digitVal_lt_ten (h c (List.mem_cons_self c cs))
    have hcs : digitsVal cs < 10 ^ cs.length :=
      ih (fun x hx => h x (List.mem_cons_of_mem c hx))
    have hb : digitVal c * 10 ^ cs.length ≤ 9 * 10 ^ cs.length :=
      Nat.mul_le_mul_right _ (by omega)
    have h10 : 10 ^ (c :: cs).length = 10 * 10 ^ cs.length := by
      rw [List.length_cons, pow_succ]; ring
    rw [h10]
    omega

theorem toDecGo_acc (fuel : Nat) :
    ∀ n acc, toDecGo fuel n acc = toDecGo fuel n [] ++ acc := by
  induction fuel with
  | zero =>
    intro n acc
    rw [toDecGo_zero, toDecGo_zero]
    simp
  | succ f ih =>
    intro n acc
    by_cases h : n < 10
    · rw [toDecGo_succ, toDecGo_succ, if_pos h, if_pos h]
      simp
    · rw [toDecGo_succ, toDecGo_succ, if_neg h, if_neg h]
      rw [ih (n / 10) (Char.ofNat (48 + n % 10) :: acc),
        ih (n / 10) [Char.ofNat (48 + n % 10)]]
      simp

theorem toDecGo_fuel (fuel : Nat) :
    ∀ fuel' n, n ≤ fuel → n ≤ fuel' → toDecGo fuel n [] = toDecGo fuel' n [] := by
  induction fuel with
  | zero =>
    intro fuel' n hn _
    interval_cases n
    cases fuel' with
    | zero => rfl
    | succ f' =>
      rw [toDecGo_zero, toDecGo_succ]
      norm_num
  | succ f ih =>
    intro fuel' n hn hn'
    by_cases h : n < 10
    · cases fuel' with
      | zero =>
        interval_cases n
        rw [toDecGo_succ, toDecGo_zero]
        norm_num
      | succ f' =>
        rw [toDecGo_succ, toDecGo_succ, if_pos h, if_pos h]
    · push_neg at h
      cases fuel' with
      | zero => omega
      | succ f' =>
        rw [toDecGo_succ, toDecGo_succ,
          if_neg (by omega : ¬ n < 10), if_neg (by omega : ¬ n < 10)]
        rw [toDecGo_acc f, toDecGo_acc f']
        have hdiv : n / 10 < n := Nat.div_lt_self (by omega) (by omega)
        rw [ih f' (n / 10) (by omega) (by omega)]

theorem toDec_lt10 {n : Nat} (h : n < 10) : toDec n = [Char.ofNat (48 + n)] := by
  cases n with
  | zero => rfl
  | succ m =>
    show toDecGo (m + 1) (m + 1) [] = _
    rw [toDecGo_succ, if_pos h]

theorem toDec_step {q r : Nat} (hr : r < 10) (hq : 1 ≤ q) :
    toDec (10 * q + r) = toDec q ++ [Char.ofNat (48 + r)] := by
  have hn : 10 * q + r = (10 * q + r - 1) + 1 := by omega
  show toDecGo (10 * q + r) (10 * q + r) [] = _
  rw [hn]
  rw [toDecGo_succ, if_neg (by omega : ¬ (10 * q + r - 1) + 1 < 10)]
  have hdiv : ((10 * q + r - 1) + 1) / 10 = q := by
    rw [← hn, Nat.add_comm, Nat.add_mul_div_left r q (by omega)]
    omega
  have hmod : ((10 * q + r - 1) + 1) % 10 = r := by
    rw [← hn, Nat.add_comm, Nat.add_mul_mod_self_left]
    omega
  rw [hdiv, hmod, toDecGo_acc]
  congr 1
  exact toDecGo_fuel _ _ q (by omega) le_rfl

theorem toDec_len (n : Nat) : ∀ k, 1 ≤ k → n < 10 ^ k → (toDec n).length ≤ k := by
  induction n using Nat.strong_induction_on with
  | _ n ih =>
    intro k hk hn
    by_cases h : n < 10
    · rw [toDec_lt10 h]; simpa using hk
    · push_neg at h
      have hq : 1 ≤ n / 10 := by omega
      have hstep : n = 10 * (n / 10) + n % 10 := by omega
      have hk2 : 2 ≤ k := by
        rcases Nat.lt_or_ge k 2 with hlt | hge
        · exfalso
          have hk1 : k = 1 := by omega
          rw [hk1, pow_one] at hn
          omega
        · exact hge
      have hrepr : toDec n = toDec (n / 10) ++ [Char.ofNat (48 + n % 10)] := by
        conv_lhs => rw [hstep]
        exact toDec_step (Nat.mod_lt n (by omega)) hq
      rw [hrepr, List.length_append]
      have hpow : 10 ^ (k - 1) * 10 = 10 ^ k := by
        rw [← pow_succ]
        congr 1
        omega
      have hqk : n / 10 < 10 ^ (k - 1) := by
        have hlt : n < 10 ^ (k - 1) * 10 := by omega
        omega
      have := ih (n / 10) (by omega) (k - 1) (by omega) hqk
      simp only [List.length_singleton]
      omega

theorem digit_char_roundtrip {c : Char} (h : c.isDigit = true) :
    Char.ofNat (48 + digitVal c) = c := by
  have hb := digit_toNat_bounds h
  have heq : 48 + digitVal c = c.toNat := by simp only [digitVal]; omega
  rw [heq, Char.ofNat_toNat]

theorem digit_of_val_zero {c : Char} (h : c.isDigit = true) (hv : digitVal c = 0) :
    c = '0' := by
  have := digit_char_roundtrip h
  rw [hv] at this
  exact this.symm

/-- Left-pad with zeros (the fragment of `padStart` used on digit strings). -/
def padZeros (k : Nat) (l : List Char) : List Char :=
  List.replicate (k - l.length) '0' ++ l

theorem digitsVal_all_zero : ∀ l : List Char, (∀ c ∈ l, c.isDigit = true) →
    digitsVal l = 0 → l = List.replicate l.length '0' := by
  intro l
  induction l with
  | nil => intro _ _; rfl
  | cons c cs ih =>
    intro h hz
    rw [digitsVal_cons] at hz
    have hpow : 0 < 10 ^ cs.length := pow_pos (by omega) _
    have h1 : digitVal c * 10 ^ cs.length = 0 := by omega
    have hc : digitVal c = 0 := by
      rcases Nat.mul_eq_zero.mp h1 with h2 | h2
      · exact h2
      · omega
    have hcs : digitsVal cs = 0 := by omega
    have hc0 : c = '0' := digit_of_val_zero (h c (List.mem_cons_self c cs)) hc
    rw [List.length_cons, List.replicate_succ, hc0]
    congr 1
    exact ih (fun x hx => h x (List.mem_cons_of_mem c hx)) hcs

/-- The padded decimal rendering of the value of a digit string gives the
string back: this is why a shape-matching `YYYY-MM-DD` token is returned
verbatim by the date resolver. -/
theorem padZeros_toDec_digitsVal : ∀ l : List Char, l ≠ [] →
    (∀ c ∈ l, c.isDigit = true) →
    padZeros l.length (toDec (digitsVal l)) = l := by
  intro l
  induction l using List.reverseRecOn with
  | nil => intro hne _; exact absurd rfl hne
  | append_singleton init c ih =>
    intro _ h
    have hc : c.isDigit = true := h c (by simp)
    have hinit : ∀ x ∈ init, x.isDigit = true := fun x hx => h x (by simp [hx])
    rcases List.eq_nil_or_concat init with hnil | hcons
    · subst hnil
      have hv : digitsVal ([] ++ [c]) = digitVal c := by
        show 10 * 0 + digitVal c = digitVal c
        omega
      rw [hv, toDec_lt10 (digitVal_lt_ten hc), digit_char_roundtrip hc]
      simp [padZeros]
    · have hinitne : init ≠ [] := by
        rcases hcons with ⟨l', a, rfl⟩
        simp
      rw [digitsVal_snoc]
      have hrlt : digitVal c < 10 := digitVal_lt_ten hc
      by_cases hq0 : digitsVal init = 0
      · have hzs := digitsVal_all_zero init hinit hq0
        rw [hq0, show 10 * 0 + digitVal c = digitVal c by omega,
          toDec_lt10 hrlt, digit_char_roundtrip hc]
        show List.replicate ((init ++ [c]).length - [c].length) '0' ++ [c]
          = init ++ [c]
        rw [List.length_append]
        simp only [List.length_singleton]
        rw [show init.length + 1 - 1 = init.length by omega]
        congr 1
        exact hzs.symm
      · have hq1 : 1 ≤ digitsVal init := by omega
        rw [toDec_step hrlt hq1, digit_char_roundtrip hc]
        have hlen : (toDec (digitsVal init)).length ≤ init.length := by
          refine toDec_len _ init.length ?_ (digitsVal_lt init hinit)
          rcases hcons with ⟨l', a, rfl⟩
          simp
        show List.replicate
            ((init ++ [c]).length - (toDec (digitsVal init) ++ [c]).length) '0'
            ++ (toDec (digitsVal init) ++ [c]) = init ++ [c]
        rw [List.length_append, List.length_append]
        simp only [List.length_singleton]
        rw [show init.length + 1 - ((toDec (digitsVal init)).length + 1)
            = init.length - (toDec (digitsVal init)).length by omega,
          ← List.append_assoc]
        congr 1
        exact ih hinitne hinit

/-! ## `scripts/lib/date.js`

`getTzParts` projects a timestamp into a timezone through
`Intl.DateTimeFormat`; that collaborator is modelled as data (each commit
record carries the projected `DateParts` of its timestamp).  `addDays`
in the source converts to a `Date.UTC` epoch, shifts by whole days and
reads the UTC calendar fields back; this is exactly day arithmetic on
the proleptic Gregorian calendar, embedded below through the standard
days-from-civil / civil-from-days pair (with the month normalisation
`Date.UTC` performs on out-of-range month numbers). -/

structure DateParts where
  year : Int
  month : Int
  day : Int
deriving DecidableEq, Repr

/-- Epoch day number of a civil date (models `Date.UTC(y, m - 1, d)`
divided by the milliseconds of one day). -/
def daysFromCivil (p : DateParts) : Int :=
  let mz : Int := p.month - 1
  let y0 : Int := p.year + Int.fdiv mz 12
  let m0 : Int := Int.fmod mz 12 + 1
  let y1 : Int := if m0 ≤ 2 then y0 - 1 else y0
  let era : Int := Int.fdiv y1 400
  let yoe : Int := y1 - era * 400
  let mp : Int := Int.fmod (m0 + 9) 12
  let doy : Int := Int.fdiv (153 * mp + 2) 5 + p.day - 1
  let doe : Int := yoe * 365 + Int.fdiv yoe 4 - Int.fdiv yoe 100 + doy
  era * 146097 + doe - 719468

/-- Civil date of an epoch day number (models reading `getUTCFullYear`,
`getUTCMonth`, `getUTCDate` from a `Date`). -/
def civilFromDays (z0 : Int) : DateParts :=
  let z : Int := z0 + 719468
  let era : Int := Int.fdiv z 146097
  let doe : Int := z - era * 146097
  let yoe : Int :=
    Int.fdiv (doe - Int.fdiv doe 1460 + Int.fdiv doe 36524 - Int.fdiv doe 146096) 365
  let y : Int := yoe + era * 400
  let doy : Int := doe - (365 * yoe + Int.fdiv yoe 4 - Int.fdiv yoe 100)
  let mp : Int := Int.fdiv (5 * doy + 2) 153
  let d : Int := doy - Int.fdiv (153 * mp + 2) 5 + 1
  let m : Int := mp + (if mp < 10 then 3 else -9)
  { year := y + (if m ≤ 2 then 1 else 0), month := m, day := d }

/-- `addDays` from `scripts/lib/date.js`. -/
def addDays (p : DateParts) (deltaDays : Int) : DateParts :=
  civilFromDays (daysFromCivil p + deltaDays)

/-- JS `String(i)` for an integral number. -/
def intReprL (i : Int) : List Char :=
  if i < 0 then '-' :: toDec i.natAbs else toDec i.toNat

/-- JS `padStart(n, c)` on character lists. -/
def jsPadStartL (l : List Char) (n : Nat) (c : Char) : List Char :=
  if n ≤ l.length then l else List.replicate (n - l.length) c ++ l

/-- `datePartsToString` from `scripts/lib/date.js`:
the `${y}-${m}-${d}` template over zero-padded components. -/
def datePartsToString (p : DateParts) : String :=
  String.mk (jsPadStartL (intReprL p.year) 4 '0' ++ '-' ::
    jsPadStartL (intReprL p.month) 2 '0' ++ '-' ::
    jsPadStartL (intReprL p.day) 2 '0')

/-- `parseDateString` from `scripts/lib/date.js`: the token must match
`^\d{4}-\d{2}-\d{2}$`; the three groups are then converted with `Number`
(no calendar-range validation). -/
def parseDateString (s : String) : Option DateParts :=
  match s.data with
  | [a, b, c, d, s1, e, f, s2, g, h] =>
    if a.isDigit && b.isDigit && c.isDigit && d.isDigit && s1 = '-' &&
        e.isDigit && f.isDigit && s2 = '-' && g.isDigit && h.isDigit then
      some { year := (digitsVal [a, b, c, d] : Nat),
             month := (digitsVal [e, f] : Nat),
             day := (digitsVal [g, h] : Nat) }
    else none
  | _ => none

/-- `resolveDateToken` from `scripts/parse-commits.js`.  `commitParts`
stands for `getTzParts(commitDate, timeZone)`: the commit timestamp
projected into the configured timezone by the `Intl` collaborator. -/
def resolveDateToken (token : String) (commitParts : DateParts) : Option String :=
  if token = "" then none
  else if token = "today" then some (datePartsToString commitParts)
  else if token = "yesterday" then some (datePartsToString (addDays commitParts (-1)))
  else
    match parseDateString token with
    | some parsed => some (datePartsToString parsed)
    | none => none

/-! ## `parseDuration` from `scripts/parse-commits.js`

Token must match `^(\d+(?:\.\d+)?)(h|hr|hour|hours|m|min|mins|minute|minutes)$`
case-insensitively; minute-family values are divided by 60.  Numeric
values are modelled as exact rationals; the `Number.isFinite` test on the
parsed literal is modelled by the IEEE-754 double overflow threshold
(a nonnegative decimal literal rounds to `Infinity` exactly when its value
reaches `2^1024 - 2^970`). -/

/-- Longest digit run at the head of a character list. -/
def spanDigits : List Char → List Char × List Char
  | [] => ([], [])
  | c :: cs =>
    if c.isDigit then
      let p := spanDigits cs
      (c :: p.1, p.2)
    else ([], c :: cs)

def hourUnits : List String := ["h", "hr", "hour", "hours"]

def minuteUnits : List String := ["m", "min", "mins", "minute", "minutes"]

def durUnits : List String := hourUnits ++ minuteUnits

/-- Smallest positive decimal value that `Number` rounds up to
`Infinity`: the midpoint between the largest finite double and `2^1024`. -/
def jsOverflowNum : ℚ := ((2 ^ 1024 - 2 ^ 970 : Nat) : ℚ)

/-- The unit suffix must exhaust the token and (lowercased) be one of the
recognised units. -/
def unitCheck (v : ℚ) (suffix : List Char) : Option (ℚ × String) :=
  let u := jsToLower (String.mk suffix)
  if durUnits.contains u then some (v, u) else none

/-- The regex decomposition `(\d+(?:\.\d+)?)(unit)` of a duration token:
numeric value (exact rational) and lowercased unit. -/
def durDecomp (t : String) : Option (ℚ × String) :=
  let p := spanDigits t.data
  if p.1.isEmpty then none
  else
    match p.2 with
    | '.' :: rest2 =>
      let f := spanDigits rest2
      if f.1.isEmpty then unitCheck (digitsVal p.1 : ℚ) ('.' :: rest2)
      else unitCheck ((digitsVal p.1 : ℚ) + (digitsVal f.1 : ℚ) / 10 ^ f.1.length) f.2
    | _ => unitCheck (digitsVal p.1 : ℚ) p.2

/-- `parseDuration` from `scripts/parse-commits.js`. -/
def parseDuration (token : String) : Option ℚ :=
  match durDecomp token with
  | none => none
  | some (v, u) =>
    if v < jsOverflowNum then
      if hourUnits.contains u then some v else some (v / 60)
    else none

theorem parseDuration_eval {t : String} {v : ℚ} {u : String}
    (hd : durDecomp t = some (v, u)) (hfin : v < jsOverflowNum) :
    parseDuration t = if hourUnits.contains u then some v else some (v / 60) := by
  rw [parseDuration, hd]
  show (if v < jsOverflowNum then
      if hourUnits.contains u then some v else some (v / 60)
    else none) = if hourUnits.contains u then some v else some (v / 60)
  rw [if_pos hfin]

example : parseDuration "90m" = some (3 / 2) := by
  rw [parseDuration_eval (v := ((90 : Nat) : ℚ)) (u := "m") (by decide) (by decide)]
  rw [if_neg (by decide)]
  norm_num

example : parseDuration "2h" = some 2 := by decide
example : parseDuration "abc" = none := by decide

/-! ## Association-list maps

JS `Map` / plain-object lookup and insertion (string keys); `mapSet`
overwrites in place, keeping first-insertion order, like `Map.set` and
object assignment do. -/

def mapGet {α : Type} : List (String × α) → String → Option α
  | [], _ => none
  | (k', v) :: rest, k => if k' = k then some v else mapGet rest k

def mapSet {α : Type} : List (String × α) → String → α → List (String × α)
  | [], k, v => [(k, v)]
  | (k', v') :: rest, k, v =>
    if k' = k then (k, v) :: rest else (k', v') :: mapSet rest k v

theorem mapGet_mapSet_self {α : Type} :
    ∀ (m : List (String × α)) (k : String) (v : α), mapGet (mapSet m k v) k = some v := by
  intro m k v
  induction m with
  | nil => simp [mapGet, mapSet]
  | cons kv rest ih =>
    obtain ⟨k', v'⟩ := kv
    by_cases h : k' = k
    · simp [mapGet, mapSet, h]
    · simp only [mapSet, if_neg h]
      simp only [mapGet, if_neg h]
      exact ih

theorem mapGet_mapSet_ne {α : Type} :
    ∀ (m : List (String × α)) (k k₂ : String) (v : α), k ≠ k₂ →
      mapGet (mapSet m k v) k₂ = mapGet m k₂ := by
  intro m k k₂ v hne
  induction m with
  | nil => simp [mapGet, mapSet, hne]
  | cons kv rest ih =>
    obtain ⟨k', v'⟩ := kv
    by_cases h : k' = k
    · subst h
      simp [mapGet, mapSet, hne]
    · simp only [mapSet, if_neg h]
      by_cases h2 : k' = k₂
      · simp [mapGet, h2]
      · simp only [mapGet, if_neg h2]
        exact ih

theorem mapGet_append_right {α : Type} :
    ∀ (m : List (String × α)) (k : String) (v : α), mapGet m k = none →
      mapGet (m ++ [(k, v)]) k = some v := by
  intro m k v hnone
  induction m with
  | nil => simp [mapGet]
  | cons kv rest ih =>
    obtain ⟨k', v'⟩ := kv
    by_cases h : k' = k
    · simp [mapGet, h] at hnone
    · simp only [mapGet, if_neg h] at hnone
      simp only [List.cons_append, mapGet, if_neg h]
      exact ih hnone

/-! ## The line grammar parser (`parseTimeLine` in `scripts/parse-commits.js`) -/

/-- The scan state of the tag loop: raw tags in appearance order, the
per-tag metadata object, accumulated note words, and the currently open
tag. -/
structure TagScan where
  rawTags : List String
  tagMeta : List (String × List String)
  noteParts : List String
  currentTag : Option String
deriving DecidableEq, Repr

/-- `token.startsWith('#')`. -/
def isTagToken (t : String) : Bool :=
  match t.data with
  | c :: _ => c = '#'
  | [] => false

/-- The tag name of a `#`-token: strip `#`, take the part before the
first `:`, trim. -/
def tagNameOf (t : String) : String :=
  String.mk (trimChars ((splitCharAux ':' (t.data.drop 1) []).headD []))

/-- The inline metadata pieces of a `#`-token (the parts after the first
`:`). -/
def tagMetaPartsOf (t : String) : List (List Char) :=
  (splitCharAux ':' (t.data.drop 1) []).tail

/-- `if (!tagMeta[t]) tagMeta[t] = []; tagMeta[t].push(v)`. -/
def metaPush (m : List (String × List String)) (tag v : String) :
    List (String × List String) :=
  match mapGet m tag with
  | none => m ++ [(tag, [v])]
  | some l => mapSet m tag (l ++ [v])

/-- One step of the tag-token loop of `parseTimeLine`. -/
def tagScanStep (st : TagScan) (token : String) : TagScan :=
  if isTagToken token then
    let tagName := tagNameOf token
    if tagName = "" then { st with currentTag := none }
    else
      let st1 := { st with rawTags := st.rawTags ++ [tagName],
                           currentTag := some tagName }
      let metaParts := tagMetaPartsOf token
      if metaParts.isEmpty then st1
      else
        let metaValue := String.mk (trimChars (joinSep [':'] metaParts))
        if metaValue = "" then st1
        else { st1 with tagMeta := metaPush st1.tagMeta tagName metaValue }
  else
    match st.currentTag with
    | some t => { st with tagMeta := metaPush st.tagMeta t token }
    | none => { st with noteParts := st.noteParts ++ [token] }

/-- The tag-token loop over the tokens after date and duration. -/
def processTags (tokens : List String) : TagScan :=
  tokens.foldl tagScanStep ⟨[], [], [], none⟩

structure ParsedLine where
  dateToken : String
  durationToken : String
  rawTags : List String
  tagMeta : List (String × List String)
  note : String
deriving DecidableEq, Repr

/-- A recognised `time:` line either fails the two-token minimum (the
source returns `{ error: 'missing date or duration' }`, whose message is
never read downstream) or parses fully. -/
inductive ParseOutcome
  | err
  | ok (p : ParsedLine)
deriving DecidableEq, Repr

/-- The `/^time:\s*/i` test on an already-trimmed line. -/
def hasTimeMarker (l : List Char) : Bool :=
  (l.take 5).map asciiToLower = "time:".data

/-- `trimmed.replace(/^time:\s*/i, '')`. -/
def dropTimeMarker (l : List Char) : List Char :=
  (l.drop 5).dropWhile wsChar

/-- `parseTimeLine` from `scripts/parse-commits.js`: `none` when the line
does not carry the `time:` marker; otherwise tokenize, lowercase the date
token, take the duration token verbatim, and run the tag loop over the
rest. -/
def parseTimeLine (line : String) : Option ParseOutcome :=
  let trimmed := trimChars line.data
  if hasTimeMarker trimmed then
    match splitWords (dropTimeMarker trimmed) with
    | t0 :: t1 :: rest =>
      let scan := processTags rest
      some (ParseOutcome.ok
        { dateToken := jsToLower t0,
          durationToken := t1,
          rawTags := scan.rawTags,
          tagMeta := scan.tagMeta,
          note := String.mk (joinSep [' '] (scan.noteParts.map String.data)) })
    | _ => some ParseOutcome.err
  else none

example : parseTimeLine "hello" = none := by decide
example : parseTimeLine "time: today" = some ParseOutcome.err := by decide
example : parseTimeLine "Time:  today 2h #work fix bug" =
    some (ParseOutcome.ok
      { dateToken := "today", durationToken := "2h", rawTags := ["work"],
        tagMeta := [("work", ["fix", "bug"])], note := "" }) := by decide

/-! ## The tags module (`scripts/lib/tags.js`) -/

/-- ASCII restriction of the JS `\p{L}\p{N}` character class used by
`normalizeToken`. -/
def isWordChar (c : Char) : Bool := c.isAlpha || c.isDigit

/-- `replace(/^#/, '')`: strip at most one leading hash. -/
def stripHash : List Char → List Char
  | '#' :: rest => rest
  | l => l

/-- `normalizeToken` from `scripts/lib/tags.js`: trim, strip one leading
`#`, lowercase, drop every character that is not a letter or digit. -/
def normalizeToken (token : String) : String :=
  String.mk (((stripHash (trimChars token.data)).map asciiToLower).filter isWordChar)

/-- The shape of the parsed `tags.yaml`: the configured timezone (absent
or empty falls back to `"Asia/Tokyo"`) and the ordered
`canonical key ↦ alias list` entries of the `tags` table. -/
structure TagsConfig where
  timezone : Option String
  tags : List (String × List String)

/-- The tag index `loadTags` returns. -/
structure TagIndex where
  timezone : String
  canonical : List String
  aliasMap : List (String × String)
  display : List (String × List String)

/-- The alias loop body of `loadTags`: an alias is inserted only when its
normalised form is nonempty and not already present. -/
def insertAliases (m : List (String × String)) (key : String)
    (aliases : List String) : List (String × String) :=
  aliases.foldl (fun m2 al =>
    let na := normalizeToken al
    if na ≠ "" ∧ mapGet m2 na = none then mapSet m2 na key else m2) m

/-- One `for (const key of canonical)` iteration of `loadTags`: the
canonical key is inserted unconditionally (overwriting), then its
aliases conditionally. -/
def insertKeyGroup (m : List (String × String)) (kv : String × List String) :
    List (String × String) :=
  let nk := normalizeToken kv.1
  let m1 := if nk ≠ "" then mapSet m nk kv.1 else m
  insertAliases m1 kv.1 kv.2

/-- `loadTags` from `scripts/lib/tags.js` (the YAML reading is modelled
as the already-parsed `TagsConfig`). -/
def loadTags (cfg : TagsConfig) : TagIndex :=
  { timezone :=
      match cfg.timezone with
      | some tz => if tz = "" then "Asia/Tokyo" else tz
      | none => "Asia/Tokyo",
    canonical := cfg.tags.map (fun kv => kv.1),
    aliasMap := cfg.tags.foldl insertKeyGroup [],
    display := cfg.tags }

/-- `normalizeTags` from `scripts/lib/tags.js`: map raw tags through the
alias map, keep matches, deduplicate preserving first-occurrence order. -/
def normalizeTags (rawTags : List String) (tagIndex : TagIndex) : List String :=
  rawTags.foldl (fun acc raw =>
    let nk := normalizeToken raw
    if nk = "" then acc
    else
      match mapGet tagIndex.aliasMap nk with
      | some m => if acc.contains m then acc else acc ++ [m]
      | none => acc) []

example :
    normalizeTags ["Work", "#study"]
      (loadTags { timezone := none, tags := [("work", []), ("study", ["Study"])] })
      = ["work", "study"] := by decide
example :
    mapGet (loadTags ⟨none, [("work", ["study"]), ("study", [])]⟩).aliasMap "study"
      = some "study" := by decide
example : datePartsToString (addDays ⟨2026, 3, 1⟩ (-1)) = "2026-02-28" := by decide
example : datePartsToString (addDays ⟨2026, 1, 1⟩ (-1)) = "2025-12-31" := by decide
example : resolveDateToken "2026-02-30" ⟨2026, 1, 1⟩ = some "2026-02-30" := by decide

/-! ## The classifier fallback (`scripts/normalize-tags.js`)

The Gemini transport is an oracle `Nat → Except String (Option RawLLM)`
indexed by the number of external calls already issued in the run:
`Except.error` is a thrown transport / JSON-parse / missing-text failure,
`Except.ok none` a response whose JSON payload is not an object, and
`Except.ok (some raw)` a parsed object payload handed to
`sanitizeResult`.  The persistent cache and suggestion ledger (files on
disk, reloaded on every call) are threaded as an explicit `LLMState`. -/

/-- A sanitized (or cached) classifier result. -/
structure LLMResult where
  primary : String
  secondary : List String
  confidence : ℚ
  suggestions : List (String × List String)
deriving DecidableEq, Repr

/-- A parsed but unsanitized classifier payload; `none` fields model
absent or wrongly-typed JSON fields. -/
structure RawLLM where
  primary : Option String
  secondary : Option (List String)
  confidence : Option ℚ
  suggestions : List (String × List String)
deriving DecidableEq, Repr

/-- What one `normalizeTagsLLM` invocation looks like to `main`: a thrown
error, a `null` return (sanitization rejection), or a result. -/
inductive LLMOutcome
  | thrown (msg : String)
  | rejected
  | result (r : LLMResult)
deriving DecidableEq, Repr

/-- The persistent classifier state: `.cache/normalize.json`,
`tags.suggestions.yaml`, and the count of external calls issued. -/
structure LLMState where
  cache : List (String × LLMResult)
  ledger : List (String × List String)
  calls : Nat
deriving DecidableEq, Repr

/-- `JSON.stringify` escaping for one character (control characters other
than the common escapes cannot occur in whitespace-split tokens). -/
def jsonEscapeChar (c : Char) : List Char :=
  if c = '"' ∨ c = '\\' then ['\\', c]
  else if c = '\n' then ['\\', 'n']
  else if c = '\r' then ['\\', 'r']
  else if c = '\t' then ['\\', 't']
  else [c]

/-- `JSON.stringify` of a string. -/
def jsonStr (s : String) : List Char :=
  '"' :: (s.data.map jsonEscapeChar).join ++ ['"']

/-- `JSON.stringify({ rawTags, note })`: the cache key of
`normalizeTagsLLM`. -/
def cacheKeyOf (rawTags : List String) (note : String) : String :=
  String.mk ("\x7b\"rawTags\":[".data
    ++ joinSep [','] (rawTags.map jsonStr)
    ++ "],\"note\":".data ++ jsonStr note ++ "\x7d".data)

/-- `Set.add` on an order-preserving list. -/
def addUnique (l : List String) (v : String) : List String :=
  if l.contains v then l else l ++ [v]

/-- `new Set(existing)`: deduplicate preserving first occurrence. -/
def dedupList (l : List String) : List String := l.foldl addUnique []

/-- `appendSuggestions` from `scripts/normalize-tags.js`: set-union the
proposed alias strings (trimmed, nonempty) into the ledger per key. -/
def appendSuggestions (ledger : List (String × List String))
    (news : List (String × List String)) : List (String × List String) :=
  news.foldl (fun led kv =>
    let cur := dedupList ((mapGet led kv.1).getD [])
    let merged := kv.2.foldl (fun acc v =>
      let t := jsTrim v
      if t ≠ "" then addUnique acc t else acc) cur
    mapSet led kv.1 merged) ledger

/-- `sanitizeResult` from `scripts/normalize-tags.js`: reject unless
`primary` is a recognised canonical key; keep only canonical, non-primary
`secondary` entries; clamp out-of-range confidence to 0; pass
`new_alias_suggestions` through. -/
def sanitizeResult (result : Option RawLLM) (canonical : List String) :
    Option LLMResult :=
  match result with
  | none => none
  | some r =>
    match r.primary with
    | none => none
    | some p =>
      if canonical.contains p then
        some { primary := p,
               secondary :=
                 match r.secondary with
                 | some s => s.filter (fun tag => canonical.contains tag && tag != p)
                 | none => [],
               confidence :=
                 match r.confidence with
                 | some conf => if 0 ≤ conf ∧ conf ≤ 1 then conf else 0
                 | none => 0,
               suggestions := r.suggestions }
      else none

/-- `normalizeTagsLLM` from `scripts/normalize-tags.js`: cache hit short
circuits with the stored result; on a miss, one external call is issued,
the sanitized result (if any) is cached and its suggestions merged into
the ledger. -/
def normalizeTagsLLM (gemini : Nat → Except String (Option RawLLM))
    (canonical : List String) (rawTags : List String) (note : String)
    (st : LLMState) : LLMOutcome × LLMState :=
  let key := cacheKeyOf rawTags note
  match mapGet st.cache key with
  | some r => (LLMOutcome.result r, st)
  | none =>
    let st1 : LLMState := { st with calls := st.calls + 1 }
    match gemini st.calls with
    | Except.error msg => (LLMOutcome.thrown msg, st1)
    | Except.ok raw =>
      match sanitizeResult raw canonical with
      | none => (LLMOutcome.rejected, st1)
      | some s =>
        (LLMOutcome.result s,
         { st1 with cache := mapSet st1.cache key s,
                    ledger := appendSuggestions st1.ledger s.suggestions })

/-! ## The ingestion coordinator (`main` in `scripts/parse-commits.js`)

The per-line loop is embedded as explicit state passing over a
`RunState` holding the per-day stores (`data/<date>.json` files), the
error log (`data/_errors.json`), the run counters and the classifier
state.  The commit-selection queries (`git log` ranges) belong to the
log-reader collaborator; the coordinator is modelled from the selected
commit list on.  `assigned` is a ghost log receiving every id exactly
where `const id = ...` computes one; it influences nothing. -/

structure ErrRec where
  id : String
  commit : String
  line : String
  reason : String
deriving DecidableEq, Repr

structure Normalized where
  primary : String
  secondary : List String
  confidence : ℚ
  method : String
deriving DecidableEq, Repr

/-- A stored time entry (`at` is spelled `atTime`: `at` is reserved). -/
structure Entry where
  id : String
  atTime : String
  hours : ℚ
  rawDateToken : String
  rawDurationToken : String
  rawTags : List String
  rawTagMeta : List (String × List String)
  rawNote : String
  normalized : Normalized
  repo : String
  commit : String
deriving DecidableEq, Repr

structure RunState where
  stores : List (String × List Entry)
  errors : List ErrRec
  added : Nat
  skipped : Nat
  errored : Nat
  llm : LLMState
  assigned : List String
deriving DecidableEq, Repr

/-- A commit record from the log reader; `commitParts` carries
`getTzParts(new Date(dateStr), timeZone)`, the timezone projection of the
commit timestamp performed by the `Intl` collaborator. -/
structure Commit where
  sha : String
  dateStr : String
  commitParts : DateParts
  body : String
deriving DecidableEq, Repr

/-- Per-run configuration: the loaded tag index, the `LLM_ENABLED`
toggle, the repository name, and the classifier transport oracle. -/
structure Cfg where
  tagIndex : TagIndex
  llmEnabled : Bool
  repo : String
  gemini : Nat → Except String (Option RawLLM)

/-- The id template `sha:${commit.sha}:${timeLineIndex}`. -/
def mkId (sha : String) (idx : Nat) : String :=
  "sha:" ++ sha ++ ":" ++ natRepr idx

/-- `daily.entries.some((entry) => entry.id === id)`. -/
def hasId (l : List Entry) (i : String) : Bool :=
  l.any (fun e => e.id == i)

/-- The pre-classifier normalized fields:
`normalizedTags[0] || 'uncategorized'`, `slice(1)`, confidence and method
by emptiness. -/
def classifyDefaults (normalizedTags : List String) : Normalized :=
  { primary :=
      match normalizedTags with
      | [] => "uncategorized"
      | h :: _ => if h = "" then "uncategorized" else h,
    secondary := normalizedTags.tail,
    confidence := if 0 < normalizedTags.length then 1 else 0,
    method := if 0 < normalizedTags.length then "alias" else "fallback" }

/-- Lines 221–249 of `main`: when the alias stage yields nothing and the
feature is enabled, call the classifier; a returned result overrides the
defaults with method `"llm"`; `null` keeps the defaults; a thrown error
records one ErrorLog entry (reason `llm_error:<msg>`) and keeps the
defaults.  Note that `errorCount` is not touched on this path. -/
def classifyStage (cfg : Cfg) (sha line id : String) (rawTags : List String)
    (note : String) (normalizedTags : List String) (st : RunState) :
    Normalized × RunState :=
  if normalizedTags.isEmpty && cfg.llmEnabled then
    match normalizeTagsLLM cfg.gemini cfg.tagIndex.canonical rawTags note st.llm with
    | (LLMOutcome.result r, llm2) =>
      ({ primary := r.primary, secondary := r.secondary,
         confidence := if r.confidence = 0 then 0 else r.confidence,
         method := "llm" }, { st with llm := llm2 })
    | (LLMOutcome.rejected, llm2) =>
      (classifyDefaults normalizedTags, { st with llm := llm2 })
    | (LLMOutcome.thrown msg, llm2) =>
      (classifyDefaults normalizedTags,
       { st with llm := llm2,
                 errors := st.errors ++ [⟨id, sha, line, "llm_error:" ++ msg⟩] })
  else (classifyDefaults normalizedTags, st)

/-- Lines 251–291 of `main`: load the day store, skip when the id already
exists, otherwise append the entry and count it as added. -/
def writeStage (cfg : Cfg) (c : Commit) (id dateString : String) (hours : ℚ)
    (p : ParsedLine) (nm : Normalized) (st : RunState) : RunState :=
  let daily := (mapGet st.stores dateString).getD []
  if hasId daily id then { st with skipped := st.skipped + 1 }
  else
    { st with
        stores := mapSet st.stores dateString (daily ++
          [{ id := id, atTime := c.dateStr, hours := hours,
             rawDateToken := p.dateToken, rawDurationToken := p.durationToken,
             rawTags := p.rawTags, rawTagMeta := p.tagMeta, rawNote := p.note,
             normalized := nm, repo := cfg.repo, commit := c.sha }]),
        added := st.added + 1 }

/-- `recordError` + `errorCount += 1` for a date/duration failure. -/
def recordLineError (st : RunState) (id sha line : String) : RunState :=
  { st with errors := st.errors ++ [⟨id, sha, line, "invalid date or duration"⟩],
            errored := st.errored + 1 }

/-- One iteration of `for (const line of lines)`: unrecognised lines are
skipped without consuming a counter value; recognised lines take the next
id; a missing-tokens outcome or an unresolvable date/duration records an
error; otherwise the line is normalized and written. -/
def processLine (cfg : Cfg) (c : Commit) (line : String) (st : RunState)
    (idx : Nat) : RunState × Nat :=
  match parseTimeLine line with
  | none => (st, idx)
  | some out =>
    let id := mkId c.sha idx
    let st1 := { st with assigned := st.assigned ++ [id] }
    match out with
    | ParseOutcome.err => (recordLineError st1 id c.sha line, idx + 1)
    | ParseOutcome.ok p =>
      match resolveDateToken p.dateToken c.commitParts,
          parseDuration p.durationToken with
      | some dateString, some hours =>
        let normalizedTags := normalizeTags p.rawTags cfg.tagIndex
        let step := classifyStage cfg c.sha line id p.rawTags p.note normalizedTags st1
        (writeStage cfg c id dateString hours p step.1 step.2, idx + 1)
      | _, _ => (recordLineError st1 id c.sha line, idx + 1)

/-- The line loop of one commit, threading the per-commit
`timeLineIndex`. -/
def processLines (cfg : Cfg) (c : Commit) :
    List String → RunState → Nat → RunState × Nat
  | [], st, idx => (st, idx)
  | l :: ls, st, idx =>
    let r := processLine cfg c l st idx
    processLines cfg c ls r.1 r.2

/-- One commit: split the body into lines and run the loop from index 0. -/
def processCommit (cfg : Cfg) (c : Commit) (st : RunState) : RunState :=
  (processLines cfg c (splitLines c.body) st 0).1

/-- The commit loop of `main` over the selected, deduplicated commit
list. -/
def runCommits (cfg : Cfg) (cs : List Commit) (st : RunState) : RunState :=
  cs.foldl (fun st2 c => processCommit cfg c st2) st

/-- Number of recognised `time:` lines of a body (two-token failures
included). -/
def countRecognized (body : String) : Nat :=
  ((splitLines body).filter (fun l => (parseTimeLine l).isSome)).length

/-- Specification-side list of the (id, date) pairs of the lines of a
commit that parse fully; used to state idempotence. -/
def validIdsAux (sha : String) (cp : DateParts) :
    List String → Nat → List (String × String)
  | [], _ => []
  | l :: ls, idx =>
    match parseTimeLine l with
    | none => validIdsAux sha cp ls idx
    | some ParseOutcome.err => validIdsAux sha cp ls (idx + 1)
    | some (ParseOutcome.ok p) =>
      match resolveDateToken p.dateToken cp, parseDuration p.durationToken with
      | some ds, some _ => (mkId sha idx, ds) :: validIdsAux sha cp ls (idx + 1)
      | _, _ => validIdsAux sha cp ls (idx + 1)

def validIds (c : Commit) : List (String × String) :=
  validIdsAux c.sha c.commitParts (splitLines c.body) 0

/-! ## Structural lemmas about the per-line step -/

theorem classifyStage_inv (cfg : Cfg) (sha line id : String)
    (rawTags : List String) (note : String) (nt : List String) (st : RunState) :
    (classifyStage cfg sha line id rawTags note nt st).2.stores = st.stores ∧
    (classifyStage cfg sha line id rawTags note nt st).2.added = st.added ∧
    (classifyStage cfg sha line id rawTags note nt st).2.skipped = st.skipped ∧
    (classifyStage cfg sha line id rawTags note nt st).2.errored = st.errored ∧
    (classifyStage cfg sha line id rawTags note nt st).2.assigned = st.assigned := by
  unfold classifyStage
  split
  · split <;> simp
  · simp

theorem writeStage_skip (cfg : Cfg) (c : Commit) (id dateString : String)
    (hours : ℚ) (p : ParsedLine) (nm : Normalized) (st : RunState)
    (h : hasId ((mapGet st.stores dateString).getD []) id = true) :
    writeStage cfg c id dateString hours p nm st =
      { st with skipped := st.skipped + 1 } := by
  unfold writeStage
  simp only [h, if_true]

theorem writeStage_add (cfg : Cfg) (c : Commit) (id dateString : String)
    (hours : ℚ) (p : ParsedLine) (nm : Normalized) (st : RunState)
    (h : hasId ((mapGet st.stores dateString).getD []) id = false) :
    writeStage cfg c id dateString hours p nm st =
      { st with
          stores := mapSet st.stores dateString
            (((mapGet st.stores dateString).getD []) ++
              [{ id := id, atTime := c.dateStr, hours := hours,
                 rawDateToken := p.dateToken, rawDurationToken := p.durationToken,
                 rawTags := p.rawTags, rawTagMeta := p.tagMeta, rawNote := p.note,
                 normalized := nm, repo := cfg.repo, commit := c.sha }]),
          added := st.added + 1 } := by
  unfold writeStage
  simp only [h, Bool.false_eq_true, if_false]

theorem processLine_unrecognized (cfg : Cfg) (c : Commit) (line : String)
    (st : RunState) (idx : Nat) (hp : parseTimeLine line = none) :
    processLine cfg c line st idx = (st, idx) := by
  unfold processLine
  rw [hp]

theorem processLine_err (cfg : Cfg) (c : Commit) (line : String)
    (st : RunState) (idx : Nat) (hp : parseTimeLine line = some ParseOutcome.err) :
    processLine cfg c line st idx =
      (recordLineError { st with assigned := st.assigned ++ [mkId c.sha idx] }
        (mkId c.sha idx) c.sha line, idx + 1) := by
  simp only [processLine, hp]

theorem processLine_badline (cfg : Cfg) (c : Commit) (line : String)
    (st : RunState) (idx : Nat) (p : ParsedLine)
    (hp : parseTimeLine line = some (ParseOutcome.ok p))
    (hbad : resolveDateToken p.dateToken c.commitParts = none ∨
      parseDuration p.durationToken = none) :
    processLine cfg c line st idx =
      (recordLineError { st with assigned := st.assigned ++ [mkId c.sha idx] }
        (mkId c.sha idx) c.sha line, idx + 1) := by
  simp only [processLine, hp]
  rcases hbad with h | h
  · rw [h]
  · rw [h]
    cases hr : resolveDateToken p.dateToken c.commitParts <;> rfl

theorem processLine_valid (cfg : Cfg) (c : Commit) (line : String)
    (st : RunState) (idx : Nat) (p : ParsedLine) (ds : String) (hours : ℚ)
    (hp : parseTimeLine line = some (ParseOutcome.ok p))
    (hd : resolveDateToken p.dateToken c.commitParts = some ds)
    (hh : parseDuration p.durationToken = some hours) :
    processLine cfg c line st idx =
      (writeStage cfg c (mkId c.sha idx) ds hours p
        (classifyStage cfg c.sha line (mkId c.sha idx) p.rawTags p.note
          (normalizeTags p.rawTags cfg.tagIndex)
          { st with assigned := st.assigned ++ [mkId c.sha idx] }).1
        (classifyStage cfg c.sha line (mkId c.sha idx) p.rawTags p.note
          (normalizeTags p.rawTags cfg.tagIndex)
          { st with assigned := st.assigned ++ [mkId c.sha idx] }).2,
       idx + 1) := by
  simp only [processLine, hp, hd, hh]

theorem processLine_skip (cfg : Cfg) (c : Commit) (line : String)
    (st : RunState) (idx : Nat) (p : ParsedLine) (ds : String) (hours : ℚ)
    (hp : parseTimeLine line = some (ParseOutcome.ok p))
    (hd : resolveDateToken p.dateToken c.commitParts = some ds)
    (hh : parseDuration p.durationToken = some hours)
    (hhas : hasId ((mapGet st.stores ds).getD []) (mkId c.sha idx) = true) :
    (processLine cfg c line st idx).1.stores = st.stores ∧
    (processLine cfg c line st idx).1.added = st.added ∧
    (processLine cfg c line st idx).1.skipped = st.skipped + 1 ∧
    (processLine cfg c line st idx).1.errored = st.errored := by
  rw [processLine_valid cfg c line st idx p ds hours hp hd hh]
  obtain ⟨h1, h2, h3, h4, _⟩ := classifyStage_inv cfg c.sha line (mkId c.sha idx)
    p.rawTags p.note (normalizeTags p.rawTags cfg.tagIndex)
    { st with assigned := st.assigned ++ [mkId c.sha idx] }
  rw [writeStage_skip _ _ _ _ _ _ _ _ (by rw [h1]; exact hhas)]
  refine ⟨by rw [h1], by rw [h2], by rw [h3], by rw [h4]⟩

theorem processLine_growth (cfg : Cfg) (c : Commit) (line : String)
    (st : RunState) (idx : Nat) (d i : String)
    (h : hasId ((mapGet st.stores d).getD []) i = true) :
    hasId ((mapGet (processLine cfg c line st idx).1.stores d).getD []) i = true := by
  cases hp : parseTimeLine line with
  | none => rw [processLine_unrecognized cfg c line st idx hp]; exact h
  | some out =>
    cases out with
    | err => rw [processLine_err cfg c line st idx hp]; exact h
    | ok p =>
      cases hr : resolveDateToken p.dateToken c.commitParts with
      | none =>
        rw [processLine_badline cfg c line st idx p hp (Or.inl hr)]
        exact h
      | some ds =>
        cases hdur : parseDuration p.durationToken with
        | none =>
          rw [processLine_badline cfg c line st idx p hp (Or.inr hdur)]
          exact h
        | some hours =>
          rw [processLine_valid cfg c line st idx p ds hours hp hr hdur]
          obtain ⟨h1, _, _, _, _⟩ := classifyStage_inv cfg c.sha line (mkId c.sha idx)
            p.rawTags p.note (normalizeTags p.rawTags cfg.tagIndex)
            { st with assigned := st.assigned ++ [mkId c.sha idx] }
          cases hh2 : hasId ((mapGet (classifyStage cfg c.sha line (mkId c.sha idx)
              p.rawTags p.note (normalizeTags p.rawTags cfg.tagIndex)
              { st with assigned := st.assigned ++ [mkId c.sha idx] }).2.stores ds).getD [])
              (mkId c.sha idx) with
          | true =>
            rw [writeStage_skip _ _ _ _ _ _ _ _ hh2]
            rw [h1]
            exact h
          | false =>
            rw [writeStage_add _ _ _ _ _ _ _ _ hh2]
            by_cases hdd : ds = d
            · subst hdd
              show hasId ((mapGet (mapSet _ ds _) ds).getD []) i = true
              rw [mapGet_mapSet_self]
              simp only [Option.getD_some]
              rw [h1] at *
              simp only [hasId, List.any_append]
              rw [show ((mapGet st.stores ds).getD []).any (fun e => e.id == i) = true
                from h]
              simp
            · show hasId ((mapGet (mapSet _ ds _) d).getD []) i = true
              rw [mapGet_mapSet_ne _ _ _ _ hdd]
              rw [h1]
              exact h

theorem processLine_covers (cfg : Cfg) (c : Commit) (line : String)
    (st : RunState) (idx : Nat) (p : ParsedLine) (ds : String) (hours : ℚ)
    (hp : parseTimeLine line = some (ParseOutcome.ok p))
    (hd : resolveDateToken p.dateToken c.commitParts = some ds)
    (hh : parseDuration p.durationToken = some hours) :
    hasId ((mapGet (processLine cfg c line st idx).1.stores ds).getD [])
      (mkId c.sha idx) = true := by
  rw [processLine_valid cfg c line st idx p ds hours hp hd hh]
  obtain ⟨h1, _, _, _, _⟩ := classifyStage_inv cfg c.sha line (mkId c.sha idx)
    p.rawTags p.note (normalizeTags p.rawTags cfg.tagIndex)
    { st with assigned := st.assigned ++ [mkId c.sha idx] }
  cases hh2 : hasId ((mapGet (classifyStage cfg c.sha line (mkId c.sha idx)
      p.rawTags p.note (normalizeTags p.rawTags cfg.tagIndex)
      { st with assigned := st.assigned ++ [mkId c.sha idx] }).2.stores ds).getD [])
      (mkId c.sha idx) with
  | true =>
    rw [writeStage_skip _ _ _ _ _ _ _ _ hh2]
    exact hh2
  | false =>
    rw [writeStage_add _ _ _ _ _ _ _ _ hh2]
    show hasId ((mapGet (mapSet _ ds _) ds).getD []) (mkId c.sha idx) = true
    rw [mapGet_mapSet_self]
    simp [hasId, List.any_append]

theorem processLine_stable (cfg : Cfg) (c : Commit) (line : String)
    (st : RunState) (idx : Nat)
    (hok : ∀ p ds hours, parseTimeLine line = some (ParseOutcome.ok p) →
      resolveDateToken p.dateToken c.commitParts = some ds →
      parseDuration p.durationToken = some hours →
      hasId ((mapGet st.stores ds).getD []) (mkId c.sha idx) = true) :
    (processLine cfg c line st idx).1.stores = st.stores ∧
    (processLine cfg c line st idx).1.added = st.added := by
  cases hp : parseTimeLine line with
  | none => rw [processLine_unrecognized cfg c line st idx hp]; exact ⟨rfl, rfl⟩
  | some out =>
    cases out with
    | err => rw [processLine_err cfg c line st idx hp]; exact ⟨rfl, rfl⟩
    | ok p =>
      cases hr : resolveDateToken p.dateToken c.commitParts with
      | none =>
        rw [processLine_badline cfg c line st idx p hp (Or.inl hr)]
        exact ⟨rfl, rfl⟩
      | some ds =>
        cases hdur : parseDuration p.durationToken with
        | none =>
          rw [processLine_badline cfg c line st idx p hp (Or.inr hdur)]
          exact ⟨rfl, rfl⟩
        | some hours =>
          obtain ⟨g1, g2, _, _⟩ := processLine_skip cfg c line st idx p ds hours
            hp hr hdur (hok p ds hours hp hr hdur)
          exact ⟨g1, g2⟩

theorem processLines_nil (cfg : Cfg) (c : Commit) (st : RunState) (idx : Nat) :
    processLines cfg c [] st idx = (st, idx) := rfl

theorem processLines_cons (cfg : Cfg) (c : Commit) (l : String) (ls : List String)
    (st : RunState) (idx : Nat) :
    processLines cfg c (l :: ls) st idx =
      processLines cfg c ls (processLine cfg c l st idx).1
        (processLine cfg c l st idx).2 := rfl

theorem validIdsAux_unrec (sha : String) (cp : DateParts) (l : String)
    (ls : List String) (idx : Nat) (hp : parseTimeLine l = none) :
    validIdsAux sha cp (l :: ls) idx = validIdsAux sha cp ls idx := by
  simp only [validIdsAux, hp]

theorem validIdsAux_err (sha : String) (cp : DateParts) (l : String)
    (ls : List String) (idx : Nat) (hp : parseTimeLine l = some ParseOutcome.err) :
    validIdsAux sha cp (l :: ls) idx = validIdsAux sha cp ls (idx + 1) := by
  simp only [validIdsAux, hp]

theorem validIdsAux_bad (sha : String) (cp : DateParts) (l : String)
    (ls : List String) (idx : Nat) (p : ParsedLine)
    (hp : parseTimeLine l = some (ParseOutcome.ok p))
    (hbad : resolveDateToken p.dateToken cp = none ∨
      parseDuration p.durationToken = none) :
    validIdsAux sha cp (l :: ls) idx = validIdsAux sha cp ls (idx + 1) := by
  simp only [validIdsAux, hp]
  rcases hbad with h | h
  · rw [h]
  · rw [h]
    cases hr : resolveDateToken p.dateToken cp <;> rfl

theorem validIdsAux_valid (sha : String) (cp : DateParts) (l : String)
    (ls : List String) (idx : Nat) (p : ParsedLine) (ds : String) (hours : ℚ)
    (hp : parseTimeLine l = some (ParseOutcome.ok p))
    (hd : resolveDateToken p.dateToken cp = some ds)
    (hh : parseDuration p.durationToken = some hours) :
    validIdsAux sha cp (l :: ls) idx =
      (mkId sha idx, ds) :: validIdsAux sha cp ls (idx + 1) := by
  simp only [validIdsAux, hp, hd, hh]

theorem processLine_idx (cfg : Cfg) (c : Commit) (line : String)
    (st : RunState) (idx : Nat) :
    (processLine cfg c line st idx).2 =
      if (parseTimeLine line).isSome then idx + 1 else idx := by
  cases hp : parseTimeLine line with
  | none => rw [processLine_unrecognized cfg c line st idx hp]; simp
  | some out =>
    cases out with
    | err => rw [processLine_err cfg c line st idx hp]; simp
    | ok p =>
      cases hr : resolveDateToken p.dateToken c.commitParts with
      | none => rw [processLine_badline cfg c line st idx p hp (Or.inl hr)]; simp
      | some ds =>
        cases hdur : parseDuration p.durationToken with
        | none => rw [processLine_badline cfg c line st idx p hp (Or.inr hdur)]; simp
        | some hours =>
          rw [processLine_valid cfg c line st idx p ds hours hp hr hdur]
          simp

theorem processLines_growth (cfg : Cfg) (c : Commit) :
    ∀ (lines : List String) (st : RunState) (idx : Nat) (d i : String),
      hasId ((mapGet st.stores d).getD []) i = true →
      hasId ((mapGet (processLines cfg c lines st idx).1.stores d).getD []) i
        = true := by
  intro lines
  induction lines with
  | nil => intro st idx d i h; rw [processLines_nil]; exact h
  | cons l ls ih =>
    intro st idx d i h
    rw [processLines_cons]
    exact ih _ _ d i (processLine_growth cfg c l st idx d i h)

theorem processLines_covers (cfg : Cfg) (c : Commit) :
    ∀ (lines : List String) (st : RunState) (idx : Nat),
      ∀ pr ∈ validIdsAux c.sha c.commitParts lines idx,
        hasId ((mapGet (processLines cfg c lines st idx).1.stores pr.2).getD [])
          pr.1 = true := by
  intro lines
  induction lines with
  | nil => intro st idx pr hpr; simp [validIdsAux] at hpr
  | cons l ls ih =>
    intro st idx pr hpr
    rw [processLines_cons]
    cases hp : parseTimeLine l with
    | none =>
      rw [validIdsAux_unrec c.sha c.commitParts l ls idx hp] at hpr
      rw [processLine_unrecognized cfg c l st idx hp]
      exact ih st idx pr hpr
    | some out =>
      cases out with
      | err =>
        rw [validIdsAux_err c.sha c.commitParts l ls idx hp] at hpr
        have hidx : (processLine cfg c l st idx).2 = idx + 1 := by
          rw [processLine_idx, hp]
          simp
        rw [hidx]
        exact ih _ _ pr hpr
      | ok p =>
        cases hr : resolveDateToken p.dateToken c.commitParts with
        | none =>
          rw [validIdsAux_bad c.sha c.commitParts l ls idx p hp (Or.inl hr)] at hpr
          have hidx : (processLine cfg c l st idx).2 = idx + 1 := by
            rw [processLine_idx, hp]
            simp
          rw [hidx]
          exact ih _ _ pr hpr
        | some ds =>
          cases hdur : parseDuration p.durationToken with
          | none =>
            rw [validIdsAux_bad c.sha c.commitParts l ls idx p hp (Or.inr hdur)] at hpr
            have hidx : (processLine cfg c l st idx).2 = idx + 1 := by
              rw [processLine_idx, hp]
              simp
            rw [hidx]
            exact ih _ _ pr hpr
          | some hours =>
            rw [validIdsAux_valid c.sha c.commitParts l ls idx p ds hours
              hp hr hdur] at hpr
            have hidx : (processLine cfg c l st idx).2 = idx + 1 := by
              rw [processLine_idx, hp]
              simp
            rw [hidx]
            rcases List.mem_cons.mp hpr with heq | htail
            · subst heq
              exact processLines_growth cfg c ls _ _ ds (mkId c.sha idx)
                (processLine_covers cfg c l st idx p ds hours hp hr hdur)
            · exact ih _ _ pr htail

theorem processLines_stable (cfg : Cfg) (c : Commit) :
    ∀ (lines : List String) (st : RunState) (idx : Nat),
      (∀ pr ∈ validIdsAux c.sha c.commitParts lines idx,
        hasId ((mapGet st.stores pr.2).getD []) pr.1 = true) →
      (processLines cfg c lines st idx).1.stores = st.stores ∧
      (processLines cfg c lines st idx).1.added = st.added := by
  intro lines
  induction lines with
  | nil => intro st idx _; rw [processLines_nil]; exact ⟨rfl, rfl⟩
  | cons l ls ih =>
    intro st idx hok
    rw [processLines_cons]
    have hstep : (processLine cfg c l st idx).1.stores = st.stores ∧
        (processLine cfg c l st idx).1.added = st.added := by
      apply processLine_stable
      intro p ds hours hp hd hh
      have := hok (mkId c.sha idx, ds)
      rw [validIdsAux_valid c.sha c.commitParts l ls idx p ds hours hp hd hh] at this
      exact this (List.mem_cons_self _ _)
    have htail : ∀ pr ∈ validIdsAux c.sha c.commitParts ls
        ((processLine cfg c l st idx).2),
        hasId ((mapGet (processLine cfg c l st idx).1.stores pr.2).getD [])
          pr.1 = true := by
      intro pr hpr
      rw [hstep.1]
      cases hp : parseTimeLine l with
      | none =>
        apply hok
        rw [validIdsAux_unrec c.sha c.commitParts l ls idx hp]
        have hidx : (processLine cfg c l st idx).2 = idx := by
          rw [processLine_idx, hp]
          simp
        rw [hidx] at hpr
        exact hpr
      | some out =>
        have hidx : (processLine cfg c l st idx).2 = idx + 1 := by
          rw [processLine_idx, hp]
          simp
        rw [hidx] at hpr
        cases out with
        | err =>
          apply hok
          rw [validIdsAux_err c.sha c.commitParts l ls idx hp]
          exact hpr
        | ok p =>
          cases hr : resolveDateToken p.dateToken c.commitParts with
          | none =>
            apply hok
            rw [validIdsAux_bad c.sha c.commitParts l ls idx p hp (Or.inl hr)]
            exact hpr
          | some ds =>
            cases hdur : parseDuration p.durationToken with
            | none =>
              apply hok
              rw [validIdsAux_bad c.sha c.commitParts l ls idx p hp (Or.inr hdur)]
              exact hpr
            | some hours =>
              apply hok
              rw [validIdsAux_valid c.sha c.commitParts l ls idx p ds hours hp hr hdur]
              exact List.mem_cons_of_mem _ hpr
    obtain ⟨ht1, ht2⟩ := ih (processLine cfg c l st idx).1
      (processLine cfg c l st idx).2 htail
    exact ⟨by rw [ht1, hstep.1], by rw [ht2, hstep.2]⟩

theorem processCommit_growth (cfg : Cfg) (c : Commit) (st : RunState)
    (d i : String) (h : hasId ((mapGet st.stores d).getD []) i = true) :
    hasId ((mapGet (processCommit cfg c st).stores d).getD []) i = true :=
  processLines_growth cfg c (splitLines c.body) st 0 d i h

theorem processCommit_covers (cfg : Cfg) (c : Commit) (st : RunState) :
    ∀ pr ∈ validIds c,
      hasId ((mapGet (processCommit cfg c st).stores pr.2).getD []) pr.1 = true :=
  fun pr hpr => processLines_covers cfg c (splitLines c.body) st 0 pr hpr

theorem processCommit_stable (cfg : Cfg) (c : Commit) (st : RunState)
    (hok : ∀ pr ∈ validIds c,
      hasId ((mapGet st.stores pr.2).getD []) pr.1 = true) :
    (processCommit cfg c st).stores = st.stores ∧
    (processCommit cfg c st).added = st.added :=
  processLines_stable cfg c (splitLines c.body) st 0 hok

theorem runCommits_nil (cfg : Cfg) (st : RunState) : runCommits cfg [] st = st := rfl

theorem runCommits_cons (cfg : Cfg) (c : Commit) (cs : List Commit)
    (st : RunState) :
    runCommits cfg (c :: cs) st = runCommits cfg cs (processCommit cfg c st) := rfl

theorem runCommits_growth (cfg : Cfg) :
    ∀ (cs : List Commit) (st : RunState) (d i : String),
      hasId ((mapGet st.stores d).getD []) i = true →
      hasId ((mapGet (runCommits cfg cs st).stores d).getD []) i = true := by
  intro cs
  induction cs with
  | nil => intro st d i h; rw [runCommits_nil]; exact h
  | cons c cs ih =>
    intro st d i h
    rw [runCommits_cons]
    exact ih _ d i (processCommit_growth cfg c st d i h)

theorem runCommits_covers (cfg : Cfg) :
    ∀ (cs : List Commit) (st : RunState) (c : Commit), c ∈ cs →
      ∀ pr ∈ validIds c,
        hasId ((mapGet (runCommits cfg cs st).stores pr.2).getD []) pr.1 = true := by
  intro cs
  induction cs with
  | nil => intro st c hc; simp at hc
  | cons c0 cs ih =>
    intro st c hc pr hpr
    rw [runCommits_cons]
    rcases List.mem_cons.mp hc with heq | htail
    · subst heq
      exact runCommits_growth cfg cs _ pr.2 pr.1
        (processCommit_covers cfg c st pr hpr)
    · exact ih _ c htail pr hpr

theorem runCommits_stable (cfg : Cfg) :
    ∀ (cs : List Commit) (st : RunState),
      (∀ c ∈ cs, ∀ pr ∈ validIds c,
        hasId ((mapGet st.stores pr.2).getD []) pr.1 = true) →
      (runCommits cfg cs st).stores = st.stores ∧
      (runCommits cfg cs st).added = st.added := by
  intro cs
  induction cs with
  | nil => intro st _; rw [runCommits_nil]; exact ⟨rfl, rfl⟩
  | cons c cs ih =>
    intro st hok
    rw [runCommits_cons]
    have hstep := processCommit_stable cfg c st (hok c (List.mem_cons_self _ _))
    have htail : ∀ c2 ∈ cs, ∀ pr ∈ validIds c2,
        hasId ((mapGet (processCommit cfg c st).stores pr.2).getD []) pr.1 = true := by
      intro c2 hc2 pr hpr
      rw [hstep.1]
      exact hok c2 (List.mem_cons_of_mem _ hc2) pr hpr
    obtain ⟨ht1, ht2⟩ := ih (processCommit cfg c st) htail
    exact ⟨by rw [ht1, hstep.1], by rw [ht2, hstep.2]⟩

/-! ## Lemmas about the ghost id log -/

theorem writeStage_assigned (cfg : Cfg) (c : Commit) (id ds : String)
    (hours : ℚ) (p : ParsedLine) (nm : Normalized) (st : RunState) :
    (writeStage cfg c id ds hours p nm st).assigned = st.assigned := by
  cases h : hasId ((mapGet st.stores ds).getD []) id with
  | true => rw [writeStage_skip _ _ _ _ _ _ _ _ h]
  | false => rw [writeStage_add _ _ _ _ _ _ _ _ h]

theorem processLine_assigned (cfg : Cfg) (c : Commit) (line : String)
    (st : RunState) (idx : Nat) (h : (parseTimeLine line).isSome = true) :
    (processLine cfg c line st idx).1.assigned =
      st.assigned ++ [mkId c.sha idx] := by
  cases hp : parseTimeLine line with
  | none => rw [hp] at h; simp at h
  | some out =>
    cases out with
    | err => rw [processLine_err cfg c line st idx hp]; rfl
    | ok p =>
      cases hr : resolveDateToken p.dateToken c.commitParts with
      | none => rw [processLine_badline cfg c line st idx p hp (Or.inl hr)]; rfl
      | some ds =>
        cases hdur : parseDuration p.durationToken with
        | none => rw [processLine_badline cfg c line st idx p hp (Or.inr hdur)]; rfl
        | some hours =>
          rw [processLine_valid cfg c line st idx p ds hours hp hr hdur]
          show (writeStage _ _ _ _ _ _ _ _).assigned = _
          rw [writeStage_assigned]
          obtain ⟨_, _, _, _, h5⟩ := classifyStage_inv cfg c.sha line (mkId c.sha idx)
            p.rawTags p.note (normalizeTags p.rawTags cfg.tagIndex)
            { st with assigned := st.assigned ++ [mkId c.sha idx] }
          rw [h5]

theorem mkId_range_shift (sha : String) (k idx : Nat) :
    (List.range (k + 1)).map (fun i => mkId sha (idx + i)) =
      mkId sha idx :: (List.range k).map (fun i => mkId sha (idx + 1 + i)) := by
  rw [List.range_succ_eq_map, List.map_cons, List.map_map]
  congr 1
  apply List.map_congr_left
  intro a _
  simp only [Function.comp_apply]
  congr 1
  omega

theorem processLines_assigned (cfg : Cfg) (c : Commit) :
    ∀ (lines : List String) (st : RunState) (idx : Nat),
      (processLines cfg c lines st idx).1.assigned =
        st.assigned ++
          (List.range (lines.filter (fun l => (parseTimeLine l).isSome)).length).map
            (fun i => mkId c.sha (idx + i)) ∧
      (processLines cfg c lines st idx).2 =
        idx + (lines.filter (fun l => (parseTimeLine l).isSome)).length := by
  intro lines
  induction lines with
  | nil =>
    intro st idx
    rw [processLines_nil]
    simp
  | cons l ls ih =>
    intro st idx
    rw [processLines_cons]
    cases hp : (parseTimeLine l).isSome with
    | false =>
      have hnone : parseTimeLine l = none := by
        cases hq : parseTimeLine l
        · rfl
        · rw [hq] at hp; simp at hp
      rw [processLine_unrecognized cfg c l st idx hnone]
      have hfil : (l :: ls).filter (fun l2 => (parseTimeLine l2).isSome) =
          ls.filter (fun l2 => (parseTimeLine l2).isSome) := by
        simp [List.filter, hp]
      rw [hfil]
      exact ih st idx
    | true =>
      have hidx : (processLine cfg c l st idx).2 = idx + 1 := by
        rw [processLine_idx, hp]
        simp
      have hasg := processLine_assigned cfg c l st idx hp
      have hfil : (l :: ls).filter (fun l2 => (parseTimeLine l2).isSome) =
          l :: ls.filter (fun l2 => (parseTimeLine l2).isSome) := by
        simp [List.filter, hp]
      rw [hfil, hidx]
      obtain ⟨ih1, ih2⟩ := ih (processLine cfg c l st idx).1 (idx + 1)
      constructor
      · rw [ih1, hasg, List.length_cons, mkId_range_shift]
        simp [List.append_assoc]
      · rw [ih2, List.length_cons]
        omega

theorem processCommit_assigned (cfg : Cfg) (c : Commit) (st : RunState) :
    (processCommit cfg c st).assigned =
      st.assigned ++ (List.range (countRecognized c.body)).map (mkId c.sha) := by
  have h := (processLines_assigned cfg c (splitLines c.body) st 0).1
  show (processLines cfg c (splitLines c.body) st 0).1.assigned = _
  rw [h]
  congr 1
  apply List.map_congr_left
  intro a _
  simp

/-! ## Claim theorems -/

/-- C1.  Ingestion is idempotent.  Part one: whenever the identity
computed for the current line already exists in the target day's store,
the coordinator leaves the stores unchanged, increments the skipped
counter, and touches neither the error counter nor the added counter.
Part two: replaying any selection of already-processed commits (the
second run may even use a different configuration and classifier oracle)
adds zero new entries and leaves every day store's content unchanged. -/
theorem C1_ingestion_idempotent :
    (∀ (cfg : Cfg) (c : Commit) (line : String) (st : RunState) (idx : Nat)
      (p : ParsedLine) (ds : String) (hours : ℚ),
      parseTimeLine line = some (ParseOutcome.ok p) →
      resolveDateToken p.dateToken c.commitParts = some ds →
      parseDuration p.durationToken = some hours →
      hasId ((mapGet st.stores ds).getD []) (mkId c.sha idx) = true →
      (processLine cfg c line st idx).1.stores = st.stores ∧
      (processLine cfg c line st idx).1.skipped = st.skipped + 1 ∧
      (processLine cfg c line st idx).1.errored = st.errored ∧
      (processLine cfg c line st idx).1.added = st.added) ∧
    (∀ (cfg1 cfg2 : Cfg) (cs1 cs2 : List Commit) (st : RunState),
      (∀ c ∈ cs2, c ∈ cs1) →
      (runCommits cfg2 cs2 (runCommits cfg1 cs1 st)).stores
        = (runCommits cfg1 cs1 st).stores ∧
      (runCommits cfg2 cs2 (runCommits cfg1 cs1 st)).added
        = (runCommits cfg1 cs1 st).added) := by
  constructor
  · intro cfg c line st idx p ds hours hp hd hh hhas
    obtain ⟨g1, g2, g3, g4⟩ := processLine_skip cfg c line st idx p ds hours hp hd hh hhas
    exact ⟨g1, g3, g4, g2⟩
  · intro cfg1 cfg2 cs1 cs2 st hsub
    apply runCommits_stable
    intro c hc pr hpr
    exact runCommits_covers cfg1 cs1 st c (hsub c hc) pr hpr

/-- Shared concrete fixtures for the witnesses. -/
def tagsW : TagsConfig := ⟨none, [("work", ["wrk"]), ("study", [])]⟩

def cfgW : Cfg :=
  { tagIndex := loadTags tagsW, llmEnabled := false, repo := "r",
    gemini := fun _ => Except.error "unreachable" }

def cW : Commit :=
  { sha := "abc", dateStr := "2026-01-02T12:00:00+09:00",
    commitParts := ⟨2026, 1, 2⟩,
    body := "time: today 2h #work\nunrelated line\ntime: today" }

def st0W : RunState := ⟨[], [], 0, 0, 0, ⟨[], [], 0⟩, []⟩

theorem C1_ingestion_idempotent_witness :
    (runCommits cfgW [cW] (runCommits cfgW [cW] st0W)).stores
      = (runCommits cfgW [cW] st0W).stores ∧
    (runCommits cfgW [cW] (runCommits cfgW [cW] st0W)).added
      = (runCommits cfgW [cW] st0W).added ∧
    (runCommits cfgW [cW] st0W).added = 1 :=
  ⟨(C1_ingestion_idempotent.2 cfgW cfgW [cW] [cW] st0W (fun c h => h)).1,
   (C1_ingestion_idempotent.2 cfgW cfgW [cW] [cW] st0W (fun c h => h)).2,
   by decide⟩

/-- C2.  Entry identity is stable: processing a commit appends to the id
log exactly `sha:<sha>:<n>` for `n` ranging over the zero-based count of
recognised `time:` lines of that commit's body — a function of the commit
identity and the per-commit counter only, independent of the
configuration and of the starting state (hence of whichever other
commits were processed before or in another run).  Lines recognised as
`time:` lines but failing the two-token minimum are recognised
(`ParseOutcome.err`) and therefore consume a counter value. -/
theorem C2_entry_identity_stable :
    (∀ (cfg : Cfg) (c : Commit) (st : RunState),
      (processCommit cfg c st).assigned =
        st.assigned ++ (List.range (countRecognized c.body)).map (mkId c.sha)) ∧
    parseTimeLine "time: today" = some ParseOutcome.err ∧
    (∀ line : String, parseTimeLine line = some ParseOutcome.err →
      (parseTimeLine line).isSome = true) := by
  refine ⟨processCommit_assigned, by decide, ?_⟩
  intro line h
  rw [h]
  rfl

theorem C2_entry_identity_stable_witness :
    (processCommit cfgW cW st0W).assigned =
      st0W.assigned ++ (List.range (countRecognized cW.body)).map (mkId cW.sha) ∧
    (processCommit cfgW cW st0W).assigned = ["sha:abc:0", "sha:abc:1"] :=
  ⟨C2_entry_identity_stable.1 cfgW cW st0W, by decide⟩

/-- C4.  Tag–metadata association in the tag loop: a non-`#` token is
appended to the open tag's metadata list when a tag is open (the open tag
staying open, so metadata accumulates until the next `#` token or the end
of the line) and to the free-text note otherwise; a `#` token with an
empty name closes the open tag without opening one; and the concrete
token list of the spec yields raw tags `["youtube","writing"]`, metadata
`{youtube: [analyze, fight, footage], writing: [outline]}` and an empty
note. -/
theorem C4_tag_metadata_association :
    (∀ (st : TagScan) (t tag : String), isTagToken t = false →
      st.currentTag = some tag →
      tagScanStep st t = { st with tagMeta := metaPush st.tagMeta tag t }) ∧
    (∀ (st : TagScan) (t : String), isTagToken t = false →
      st.currentTag = none →
      tagScanStep st t = { st with noteParts := st.noteParts ++ [t] }) ∧
    (∀ (m : List (String × List String)) (tag v : String),
      mapGet (metaPush m tag v) tag = some ((mapGet m tag).getD [] ++ [v])) ∧
    (∀ (st : TagScan) (t : String), isTagToken t = true → tagNameOf t = "" →
      tagScanStep st t = { st with currentTag := none }) ∧
    processTags ["#youtube", "analyze", "fight", "footage", "#writing", "outline"]
      = ⟨["youtube", "writing"],
         [("youtube", ["analyze", "fight", "footage"]), ("writing", ["outline"])],
         [], some "writing"⟩ := by
  refine ⟨?_, ?_, ?_, ?_, by decide⟩
  · intro st t tag hnt hcur
    unfold tagScanStep
    simp only [hnt, Bool.false_eq_true, if_false, hcur]
  · intro st t hnt hcur
    unfold tagScanStep
    simp only [hnt, Bool.false_eq_true, if_false, hcur]
  · intro m tag v
    unfold metaPush
    cases h : mapGet m tag with
    | none =>
      simp only [Option.getD_none, List.nil_append]
      exact mapGet_append_right m tag [v] h
    | some l =>
      simp only [Option.getD_some]
      exact mapGet_mapSet_self m tag (l ++ [v])
  · intro st t ht htn
    unfold tagScanStep
    simp only [ht, if_true, htn, if_pos rfl]

theorem C4_tag_metadata_association_witness :
    tagScanStep ⟨["youtube"], [], [], some "youtube"⟩ "analyze"
      = ⟨["youtube"], [("youtube", ["analyze"])], [], some "youtube"⟩ ∧
    tagScanStep ⟨["youtube"], [], [], some "youtube"⟩ "#"
      = ⟨["youtube"], [], [], none⟩ := by
  constructor
  · rw [C4_tag_metadata_association.1 ⟨["youtube"], [], [], some "youtube"⟩
      "analyze" "youtube" (by decide) rfl]
    decide
  · rw [C4_tag_metadata_association.2.2.2.1 ⟨["youtube"], [], [], some "youtube"⟩
      "#" (by decide) (by decide)]

/-! ## Alias precedence lemmas -/

theorem insertAliases_preserve (key : String) :
    ∀ (aliases : List String) (m : List (String × String)) (n v : String),
      mapGet m n = some v → mapGet (insertAliases m key aliases) n = some v := by
  intro aliases
  induction aliases with
  | nil => intro m n v h; exact h
  | cons a as ih =>
    intro m n v h
    have hstep : mapGet (if normalizeToken a ≠ "" ∧ mapGet m (normalizeToken a) = none
        then mapSet m (normalizeToken a) key else m) n = some v := by
      split
      · next hcond =>
        have hne : normalizeToken a ≠ n := by
          intro heq
          rw [heq] at hcond
          rw [hcond.2] at h
          exact Option.noConfusion h
        rw [mapGet_mapSet_ne _ _ _ _ hne]
        exact h
      · exact h
    exact ih _ n v hstep

theorem insertKeyGroup_self (m : List (String × String)) (k : String)
    (as : List String) (n : String) (hk : normalizeToken k = n) (hne : n ≠ "") :
    mapGet (insertKeyGroup m (k, as)) n = some k := by
  unfold insertKeyGroup
  simp only [hk, if_pos hne]
  exact insertAliases_preserve k as _ n k (mapGet_mapSet_self m n k)

theorem insertKeyGroup_preserve (m : List (String × String)) (k : String)
    (as : List String) (n key : String) (h : mapGet m n = some key)
    (hcase : k = key ∨ normalizeToken k ≠ n) :
    mapGet (insertKeyGroup m (k, as)) n = some key := by
  by_cases hk : normalizeToken k = n
  · have hkey : k = key := by
      rcases hcase with hcase | hcase
      · exact hcase
      · exact absurd hk hcase
    subst hkey
    by_cases hne : n = ""
    · subst hne
      unfold insertKeyGroup
      simp only [hk]
      rw [if_neg (by simp)]
      exact insertAliases_preserve k as m "" k h
    · exact insertKeyGroup_self m k as n hk hne
  · unfold insertKeyGroup
    simp only [ne_eq]
    split
    · exact insertAliases_preserve k as _ n key
        (by rw [mapGet_mapSet_ne _ _ _ _ hk]; exact h)
    · exact insertAliases_preserve k as m n key h

theorem foldl_insertKeyGroup_preserve (key n : String) :
    ∀ (tagsL : List (String × List String)) (m : List (String × String)),
      mapGet m n = some key →
      (∀ k ∈ tagsL.map (fun kv => kv.1), k ≠ key → normalizeToken k ≠ n) →
      mapGet (tagsL.foldl insertKeyGroup m) n = some key := by
  intro tagsL
  induction tagsL with
  | nil => intro m h _; exact h
  | cons kv rest ih =>
    intro m h hothers
    obtain ⟨k0, as0⟩ := kv
    have hcase : k0 = key ∨ normalizeToken k0 ≠ n := by
      by_cases hk0 : k0 = key
      · exact Or.inl hk0
      · exact Or.inr (hothers k0 (by simp) hk0)
    exact ih _ (insertKeyGroup_preserve m k0 as0 n key h hcase)
      (fun k hk hkne => hothers k (by simp; right; simpa using hk) hkne)

theorem aliasMap_canonical_wins :
    ∀ (tagsL : List (String × List String)) (m : List (String × String))
      (key n : String),
      key ∈ tagsL.map (fun kv => kv.1) →
      normalizeToken key = n → n ≠ "" →
      (∀ k ∈ tagsL.map (fun kv => kv.1), k ≠ key → normalizeToken k ≠ n) →
      mapGet (tagsL.foldl insertKeyGroup m) n = some key := by
  intro tagsL
  induction tagsL with
  | nil => intro m key n hmem; simp at hmem
  | cons kv rest ih =>
    intro m key n hmem hk hne hothers
    obtain ⟨k0, as0⟩ := kv
    by_cases hk0 : k0 = key
    · subst hk0
      have hbase : mapGet (insertKeyGroup m (k0, as0)) n = some k0 :=
        insertKeyGroup_self m k0 as0 n hk hne
      exact foldl_insertKeyGroup_preserve k0 n rest _ hbase
        (fun k hkmem hkne => hothers k (by simp; right; simpa using hkmem) hkne)
    · have hmem2 : key ∈ rest.map (fun kv => kv.1) := by
        simp at hmem
        rcases hmem with hmem | hmem
        · exact absurd hmem.symm hk0
        · simpa using hmem
      exact ih _ key n hmem2 hk hne
        (fun k hkmem hkne => hothers k (by simp; right; simpa using hkmem) hkne)

/-- C5.  Alias precedence: in every tag configuration where the canonical
key `key` is the only canonical key whose normalised form is `n`, looking
`n` up in the alias map built by `loadTags` resolves to `key` itself —
regardless of where in the configuration order other keys declare aliases
with the same normalised form (the canonical-key insertion overwrites,
aliases never do).  Consequently a raw token normalising to `n` resolves
through `normalizeTags` to `[key]`. -/
theorem C5_alias_precedence (cfgT : TagsConfig) (key n raw : String)
    (hmem : key ∈ (loadTags cfgT).canonical)
    (hk : normalizeToken key = n) (hne : n ≠ "")
    (hothers : ∀ k ∈ (loadTags cfgT).canonical, k ≠ key → normalizeToken k ≠ n) :
    mapGet (loadTags cfgT).aliasMap n = some key ∧
    (normalizeToken raw = n → normalizeTags [raw] (loadTags cfgT) = [key]) := by
  have hmain : mapGet (loadTags cfgT).aliasMap n = some key :=
    aliasMap_canonical_wins cfgT.tags [] key n hmem hk hne hothers
  refine ⟨hmain, ?_⟩
  intro hraw
  unfold normalizeTags
  rw [List.foldl_cons, List.foldl_nil]
  simp only [hraw, hne, if_false, hmain]
  rfl

theorem C5_alias_precedence_witness :
    mapGet (loadTags ⟨none, [("work", ["study"]), ("study", [])]⟩).aliasMap "study"
      = some "study" ∧
    normalizeTags ["Study"] (loadTags ⟨none, [("work", ["study"]), ("study", [])]⟩)
      = ["study"] :=
  ⟨(C5_alias_precedence ⟨none, [("work", ["study"]), ("study", [])]⟩
      "study" "study" "Study" (by decide) (by decide) (by decide) (by decide)).1,
   (C5_alias_precedence ⟨none, [("work", ["study"]), ("study", [])]⟩
      "study" "study" "Study" (by decide) (by decide) (by decide) (by decide)).2
     (by decide)⟩

/-! ## Lemmas for the date resolver -/

theorem intReprL_ofNat (n : Nat) : intReprL ((n : Nat) : Int) = toDec n := by
  unfold intReprL
  rw [if_neg (by omega : ¬ ((n : Int) < 0))]
  congr 1

theorem jsPadStart_digits_roundtrip (l : List Char) (k : Nat) (hne : l ≠ [])
    (hdig : ∀ c ∈ l, c.isDigit = true) (hk : l.length = k) :
    jsPadStartL (toDec (digitsVal l)) k '0' = l := by
  subst hk
  have hpos : 0 < l.length := List.length_pos.mpr hne
  have hlen2 : (toDec (digitsVal l)).length ≤ l.length :=
    toDec_len _ _ (by omega) (digitsVal_lt l hdig)
  unfold jsPadStartL
  by_cases hc : l.length ≤ (toDec (digitsVal l)).length
  · have heq : (toDec (digitsVal l)).length = l.length := le_antisymm hlen2 hc
    rw [if_pos hc]
    have hz := padZeros_toDec_digitsVal l hne hdig
    unfold padZeros at hz
    rw [heq, Nat.sub_self] at hz
    simpa using hz
  · rw [if_neg hc]
    have hz := padZeros_toDec_digitsVal l hne hdig
    unfold padZeros at hz
    exact hz

theorem datePartsToString_digits (a b c d e f g h : Char)
    (ha : a.isDigit = true) (hb : b.isDigit = true) (hc : c.isDigit = true)
    (hd : d.isDigit = true) (he : e.isDigit = true) (hf : f.isDigit = true)
    (hg : g.isDigit = true) (hh : h.isDigit = true) :
    datePartsToString ⟨(digitsVal [a, b, c, d] : Nat), (digitsVal [e, f] : Nat),
      (digitsVal [g, h] : Nat)⟩ = String.mk [a, b, c, d, '-', e, f, '-', g, h] := by
  unfold datePartsToString
  rw [intReprL_ofNat, intReprL_ofNat, intReprL_ofNat]
  rw [jsPadStart_digits_roundtrip [a, b, c, d] 4 (by simp)
    (by intro x hx; simp at hx; rcases hx with rfl | rfl | rfl | rfl <;> assumption)
    rfl]
  rw [jsPadStart_digits_roundtrip [e, f] 2 (by simp)
    (by intro x hx; simp at hx; rcases hx with rfl | rfl <;> assumption) rfl]
  rw [jsPadStart_digits_roundtrip [g, h] 2 (by simp)
    (by intro x hx; simp at hx; rcases hx with rfl | rfl <;> assumption) rfl]
  rfl

/-- C8.  Date resolution: `today` resolves to the rendered timezone
projection of the commit timestamp; `yesterday` to that projection minus
one calendar day (`addDays _ (-1)`, with concrete month/year/leap
boundary checks below); every token matching the exact `YYYY-MM-DD`
shape is returned verbatim with no month/day range validation
(`2026-02-30` included); every other token resolves to `none`. -/
theorem C8_date_resolution :
    (∀ p : DateParts, resolveDateToken "today" p = some (datePartsToString p)) ∧
    (∀ p : DateParts, resolveDateToken "yesterday" p
      = some (datePartsToString (addDays p (-1)))) ∧
    (∀ (a b c d e f g h : Char) (p : DateParts),
      (a.isDigit && b.isDigit && c.isDigit && d.isDigit && e.isDigit &&
        f.isDigit && g.isDigit && h.isDigit) = true →
      resolveDateToken (String.mk [a, b, c, d, '-', e, f, '-', g, h]) p
        = some (String.mk [a, b, c, d, '-', e, f, '-', g, h])) ∧
    (∀ p : DateParts, resolveDateToken "2026-02-30" p = some "2026-02-30") ∧
    (∀ (t : String) (p : DateParts), t ≠ "today" → t ≠ "yesterday" →
      parseDateString t = none → resolveDateToken t p = none) ∧
    datePartsToString (addDays ⟨2026, 3, 1⟩ (-1)) = "2026-02-28" ∧
    datePartsToString (addDays ⟨2026, 1, 1⟩ (-1)) = "2025-12-31" ∧
    datePartsToString (addDays ⟨2024, 3, 1⟩ (-1)) = "2024-02-29" := by
  refine ⟨?_, ?_, ?_, ?_, ?_, by decide, by decide, by decide⟩
  · intro p
    rfl
  · intro p
    rfl
  · intro a b c d e f g h p hdig
    simp only [Bool.and_eq_true] at hdig
    obtain ⟨⟨⟨⟨⟨⟨⟨ha, hb⟩, hc⟩, hd⟩, he⟩, hf⟩, hg⟩, hh⟩ := hdig
    have hne1 : String.mk [a, b, c, d, '-', e, f, '-', g, h] ≠ "" := by
      intro hq
      have h10 : (10 : Nat) = 0 := congrArg (fun s => s.data.length) hq
      exact absurd h10 (by decide)
    have hne2 : String.mk [a, b, c, d, '-', e, f, '-', g, h] ≠ "today" := by
      intro hq
      have h10 : (10 : Nat) = 5 := congrArg (fun s => s.data.length) hq
      exact absurd h10 (by decide)
    have hne3 : String.mk [a, b, c, d, '-', e, f, '-', g, h] ≠ "yesterday" := by
      intro hq
      have h10 : (10 : Nat) = 9 := congrArg (fun s => s.data.length) hq
      exact absurd h10 (by decide)
    unfold resolveDateToken
    rw [if_neg hne1, if_neg hne2, if_neg hne3]
    have hpd : parseDateString (String.mk [a, b, c, d, '-', e, f, '-', g, h]) =
        some ⟨(digitsVal [a, b, c, d] : Nat), (digitsVal [e, f] : Nat),
          (digitsVal [g, h] : Nat)⟩ := by
      unfold parseDateString
      simp [ha, hb, hc, hd, he, hf, hg, hh]
    rw [hpd]
    show some (datePartsToString ⟨(digitsVal [a, b, c, d] : Nat),
      (digitsVal [e, f] : Nat), (digitsVal [g, h] : Nat)⟩) = _
    rw [datePartsToString_digits a b c d e f g h ha hb hc hd he hf hg hh]
  · intro p
    rfl
  · intro t p ht1 ht2 hpd
    unfold resolveDateToken
    by_cases h0 : t = ""
    · rw [if_pos h0]
    · rw [if_neg h0, if_neg ht1, if_neg ht2, hpd]

theorem C8_date_resolution_witness :
    resolveDateToken "0000-99-99" ⟨2026, 1, 5⟩ = some "0000-99-99" ∧
    resolveDateToken "tomorrow" ⟨2026, 1, 5⟩ = none :=
  ⟨C8_date_resolution.2.2.1 '0' '0' '0' '0' '9' '9' '9' '9' ⟨2026, 1, 5⟩ (by decide),
   C8_date_resolution.2.2.2.2.1 "tomorrow" ⟨2026, 1, 5⟩ (by decide) (by decide)
     (by decide)⟩

/-! ## Lemmas for the duration parser -/

theorem asciiToLower_digit {c : Char} (h : c.isDigit = true) :
    asciiToLower c = c := by
  have hb := digit_toNat_bounds h
  unfold asciiToLower
  rw [if_neg]
  rintro ⟨h1, _⟩
  have h2 : ('A' : Char).toNat ≤ c.toNat := h1
  have h65 : ('A' : Char).toNat = 65 := rfl
  omega

theorem durUnit_head (u : String)
    (hu : durUnits.contains (jsToLower u) = true) :
    ∀ c, u.data.head? = some c → c.isDigit = false ∧ c ≠ '.' := by
  intro c hc
  cases hd : u.data with
  | nil => rw [hd] at hc; exact Option.noConfusion hc
  | cons c0 cs =>
    rw [hd] at hc
    have hcc : c0 = c := by
      have : some c0 = some c := hc
      exact Option.some.inj this
    subst hcc
    have hlow : (jsToLower u).data = asciiToLower c0 :: cs.map asciiToLower := by
      show (u.data.map asciiToLower) = _
      rw [hd]
      rfl
    have hmem : jsToLower u = "h" ∨ jsToLower u = "hr" ∨ jsToLower u = "hour" ∨
        jsToLower u = "hours" ∨ jsToLower u = "m" ∨ jsToLower u = "min" ∨
        jsToLower u = "mins" ∨ jsToLower u = "minute" ∨ jsToLower u = "minutes" := by
      simpa [durUnits, hourUnits, minuteUnits] using hu
    have hhead : asciiToLower c0 = 'h' ∨ asciiToLower c0 = 'm' := by
      rcases hmem with hm | hm | hm | hm | hm | hm | hm | hm | hm <;>
        (have hdd := congrArg String.data hm
         rw [hlow] at hdd
         simp at hdd
         first
         | exact Or.inl hdd.1
         | exact Or.inr hdd.1)
    constructor
    · by_contra hdig
      rw [Bool.not_eq_false] at hdig
      have hid := asciiToLower_digit hdig
      rcases hhead with hh2 | hh2 <;> rw [hid] at hh2 <;> rw [hh2] at hdig <;>
        exact absurd hdig (by decide)
    · intro hdot
      subst hdot
      rcases hhead with hh2 | hh2 <;> exact absurd hh2 (by decide)

theorem spanDigits_append (rest : List Char)
    (hrest : ∀ c, rest.head? = some c → c.isDigit = false) :
    ∀ ds : List Char, (∀ c ∈ ds, c.isDigit = true) →
      spanDigits (ds ++ rest) = (ds, rest) := by
  intro ds
  induction ds with
  | nil =>
    intro _
    cases hr : rest with
    | nil => rfl
    | cons c cs =>
      subst hr
      show spanDigits (c :: cs) = ([], c :: cs)
      unfold spanDigits
      rw [hrest c rfl]
      simp
  | cons c cs ih =>
    intro hd
    show spanDigits (c :: (cs ++ rest)) = (c :: cs, rest)
    unfold spanDigits
    rw [hd c (List.mem_cons_self c cs)]
    simp only [if_true]
    rw [ih (fun x hx => hd x (List.mem_cons_of_mem c hx))]

theorem unitCheck_eval (v : ℚ) (u : String) :
    unitCheck v u.data =
      if durUnits.contains (jsToLower u) then some (v, jsToLower u) else none := rfl

theorem durDecomp_nofrac (ds : List Char) (u : String) (hne : ds ≠ [])
    (hdig : ∀ c ∈ ds, c.isDigit = true)
    (hu : ∀ c, u.data.head? = some c → c.isDigit = false ∧ c ≠ '.') :
    durDecomp (String.mk (ds ++ u.data)) = unitCheck (digitsVal ds : ℚ) u.data := by
  unfold durDecomp
  have hspan : spanDigits (ds ++ u.data) = (ds, u.data) :=
    spanDigits_append u.data (fun c2 hc2 => (hu c2 hc2).1) ds hdig
  show (let p := spanDigits (ds ++ u.data); if p.1.isEmpty then none else _) = _
  rw [hspan]
  have hemp : ds.isEmpty = false := by
    cases ds with
    | nil => exact absurd rfl hne
    | cons x xs => rfl
  simp only [hemp, Bool.false_eq_true, if_false]
  cases hud : u.data with
  | nil => rfl
  | cons c0 cs =>
    have hc0 := hu c0 (by rw [hud]; rfl)
    split
    · next rest2 heq =>
      have hdot : c0 = '.' := by injection heq
      exact absurd hdot hc0.2
    · rfl

theorem durDecomp_frac (ds fs : List Char) (u : String) (hne : ds ≠ [])
    (hfne : fs ≠ []) (hdig : ∀ c ∈ ds, c.isDigit = true)
    (hfdig : ∀ c ∈ fs, c.isDigit = true)
    (hu : ∀ c, u.data.head? = some c → c.isDigit = false ∧ c ≠ '.') :
    durDecomp (String.mk (ds ++ '.' :: (fs ++ u.data))) =
      unitCheck ((digitsVal ds : ℚ) + (digitsVal fs : ℚ) / 10 ^ fs.length)
        u.data := by
  unfold durDecomp
  have hspan1 : spanDigits (ds ++ '.' :: (fs ++ u.data)) =
      (ds, '.' :: (fs ++ u.data)) :=
    spanDigits_append ('.' :: (fs ++ u.data))
      (fun c2 hc2 => by
        have : c2 = '.' := (Option.some.inj hc2).symm
        rw [this]
        decide) ds hdig
  show (let p := spanDigits (ds ++ '.' :: (fs ++ u.data));
    if p.1.isEmpty then none else _) = _
  rw [hspan1]
  have hemp : ds.isEmpty = false := by
    cases ds with
    | nil => exact absurd rfl hne
    | cons x xs => rfl
  simp only [hemp, Bool.false_eq_true, if_false]
  have hspan2 : spanDigits (fs ++ u.data) = (fs, u.data) :=
    spanDigits_append u.data (fun c2 hc2 => (hu c2 hc2).1) fs hfdig
  show (let f := spanDigits (fs ++ u.data);
    if f.1.isEmpty then _ else unitCheck _ f.2) = _
  rw [hspan2]
  have hfemp : fs.isEmpty = false := by
    cases fs with
    | nil => exact absurd rfl hfne
    | cons x xs => rfl
  simp only [hfemp, Bool.false_eq_true, if_false]

/-- C9.  Duration parsing: a token that is a nonempty digit string
followed by an hour-family or minute-family unit (matched
case-insensitively) parses to the number itself or the number divided
by 60 respectively — with or without a fractional part — provided the
numeric value stays below the double-overflow threshold; a token the
regex does not match, or whose value is not finite, parses to `none`;
and concretely `"2h" ↦ 2`, `"3hours" ↦ 3`, `"90m" ↦ 3/2`,
`"abc" ↦ none`. -/
theorem C9_duration_parsing :
    (∀ (ds : List Char) (u : String),
      ds ≠ [] → (∀ c ∈ ds, c.isDigit = true) →
      durUnits.contains (jsToLower u) = true →
      (digitsVal ds : ℚ) < jsOverflowNum →
      parseDuration (String.mk (ds ++ u.data)) =
        (if hourUnits.contains (jsToLower u) then some ((digitsVal ds : ℚ))
         else some ((digitsVal ds : ℚ) / 60))) ∧
    (∀ (ds fs : List Char) (u : String),
      ds ≠ [] → fs ≠ [] → (∀ c ∈ ds, c.isDigit = true) →
      (∀ c ∈ fs, c.isDigit = true) →
      durUnits.contains (jsToLower u) = true →
      ((digitsVal ds : ℚ) + (digitsVal fs : ℚ) / 10 ^ fs.length) < jsOverflowNum →
      parseDuration (String.mk (ds ++ '.' :: (fs ++ u.data))) =
        (if hourUnits.contains (jsToLower u)
         then some ((digitsVal ds : ℚ) + (digitsVal fs : ℚ) / 10 ^ fs.length)
         else some (((digitsVal ds : ℚ) + (digitsVal fs : ℚ) / 10 ^ fs.length) / 60))) ∧
    (∀ t : String, durDecomp t = none → parseDuration t = none) ∧
    (∀ (t : String) (v : ℚ) (u : String), durDecomp t = some (v, u) →
      ¬ v < jsOverflowNum → parseDuration t = none) ∧
    parseDuration "2h" = some 2 ∧
    parseDuration "3hours" = some 3 ∧
    parseDuration "abc" = none ∧
    parseDuration "90m" = some (3 / 2) := by
  refine ⟨?_, ?_, ?_, ?_, by decide, by decide, by decide, ?_⟩
  · intro ds u hne hdig hu hfin
    unfold parseDuration
    rw [durDecomp_nofrac ds u hne hdig (durUnit_head u hu), unitCheck_eval,
      if_pos hu]
    show (if (digitsVal ds : ℚ) < jsOverflowNum then
        if hourUnits.contains (jsToLower u) then some ((digitsVal ds : ℚ))
        else some ((digitsVal ds : ℚ) / 60)
      else none) = _
    rw [if_pos hfin]
  · intro ds fs u hne hfne hdig hfdig hu hfin
    unfold parseDuration
    rw [durDecomp_frac ds fs u hne hfne hdig hfdig (durUnit_head u hu),
      unitCheck_eval, if_pos hu]
    show (if ((digitsVal ds : ℚ) + (digitsVal fs : ℚ) / 10 ^ fs.length)
          < jsOverflowNum then
        if hourUnits.contains (jsToLower u)
        then some ((digitsVal ds : ℚ) + (digitsVal fs : ℚ) / 10 ^ fs.length)
        else some (((digitsVal ds : ℚ) + (digitsVal fs : ℚ) / 10 ^ fs.length) / 60)
      else none) = _
    rw [if_pos hfin]
  · intro t h
    unfold parseDuration
    rw [h]
  · intro t v u h hnf
    unfold parseDuration
    rw [h]
    show (if v < jsOverflowNum then _ else none) = none
    rw [if_neg hnf]
  · rw [parseDuration_eval (v := ((90 : Nat) : ℚ)) (u := "m") (by decide) (by decide)]
    rw [if_neg (by decide)]
    norm_num

theorem C9_duration_parsing_witness :
    parseDuration "15H" = some 15 ∧ parseDuration "1.5h" = some (3 / 2) := by
  constructor
  · have h := C9_duration_parsing.1 ['1', '5'] "H" (by decide) (by decide)
      (by decide) (by decide)
    rw [show String.mk (['1', '5'] ++ "H".data) = "15H" from rfl] at h
    rw [h, if_pos (by decide)]
    rw [show ((digitsVal ['1', '5'] : Nat) : ℚ) = 15 by decide]
  · have hfin : ((digitsVal ['1'] : ℚ) + (digitsVal ['5'] : ℚ)
        / 10 ^ (['5'] : List Char).length) < jsOverflowNum := by
      have h1 : ((digitsVal ['1'] : ℚ) + (digitsVal ['5'] : ℚ)
          / 10 ^ (['5'] : List Char).length) < 2 := by
        rw [show ((digitsVal ['1'] : Nat) : ℚ) = 1 by decide,
          show ((digitsVal ['5'] : Nat) : ℚ) = 5 by decide,
          show ((['5'] : List Char).length) = 1 by decide]
        norm_num
      have h2 : (2 : ℚ) < jsOverflowNum := by decide
      linarith
    have h := C9_duration_parsing.2.1 ['1'] ['5'] "h" (by decide) (by decide)
      (by decide) (by decide) (by decide) hfin
    rw [show String.mk (['1'] ++ '.' :: (['5'] ++ "h".data)) = "1.5h" from rfl] at h
    rw [h, if_pos (by decide)]
    rw [show ((digitsVal ['1'] : Nat) : ℚ) = 1 by decide,
      show ((digitsVal ['5'] : Nat) : ℚ) = 5 by decide,
      show ((['5'] : List Char).length) = 1 by decide]
    norm_num

/-! ## Lemmas for the classifier fallback -/

theorem normalizeTagsLLM_hit (gemini : Nat → Except String (Option RawLLM))
    (canonical rawTags : List String) (note : String) (st : LLMState)
    (r : LLMResult) (h : mapGet st.cache (cacheKeyOf rawTags note) = some r) :
    normalizeTagsLLM gemini canonical rawTags note st = (LLMOutcome.result r, st) := by
  simp only [normalizeTagsLLM, h]

theorem normalizeTagsLLM_thrown (gemini : Nat → Except String (Option RawLLM))
    (canonical rawTags : List String) (note msg : String) (st : LLMState)
    (hmiss : mapGet st.cache (cacheKeyOf rawTags note) = none)
    (herr : gemini st.calls = Except.error msg) :
    normalizeTagsLLM gemini canonical rawTags note st =
      (LLMOutcome.thrown msg, { st with calls := st.calls + 1 }) := by
  simp only [normalizeTagsLLM, hmiss, herr]

theorem normalizeTagsLLM_rejected (gemini : Nat → Except String (Option RawLLM))
    (canonical rawTags : List String) (note : String) (st : LLMState)
    (raw : Option RawLLM)
    (hmiss : mapGet st.cache (cacheKeyOf rawTags note) = none)
    (hok : gemini st.calls = Except.ok raw)
    (hsan : sanitizeResult raw canonical = none) :
    normalizeTagsLLM gemini canonical rawTags note st =
      (LLMOutcome.rejected, { st with calls := st.calls + 1 }) := by
  simp only [normalizeTagsLLM, hmiss, hok, hsan]

theorem normalizeTagsLLM_miss_ok (gemini : Nat → Except String (Option RawLLM))
    (canonical rawTags : List String) (note : String) (st : LLMState)
    (raw : Option RawLLM) (s : LLMResult)
    (hmiss : mapGet st.cache (cacheKeyOf rawTags note) = none)
    (hok : gemini st.calls = Except.ok raw)
    (hsan : sanitizeResult raw canonical = some s) :
    normalizeTagsLLM gemini canonical rawTags note st =
      (LLMOutcome.result s,
       ⟨mapSet st.cache (cacheKeyOf rawTags note) s,
        appendSuggestions st.ledger s.suggestions, st.calls + 1⟩) := by
  simp only [normalizeTagsLLM, hmiss, hok, hsan]

theorem classifyStage_disabled (cfg : Cfg) (sha line id : String)
    (rawTags : List String) (note : String) (nt : List String) (st : RunState)
    (hdis : cfg.llmEnabled = false) :
    classifyStage cfg sha line id rawTags note nt st = (classifyDefaults nt, st) := by
  unfold classifyStage
  rw [if_neg (by rw [hdis]; simp)]

theorem classifyStage_hit (cfg : Cfg) (sha line id : String)
    (rawTags : List String) (note : String) (st : RunState) (r : LLMResult)
    (hen : cfg.llmEnabled = true)
    (hcache : mapGet st.llm.cache (cacheKeyOf rawTags note) = some r) :
    classifyStage cfg sha line id rawTags note [] st =
      (⟨r.primary, r.secondary,
        (if r.confidence = 0 then 0 else r.confidence), "llm"⟩, st) := by
  unfold classifyStage
  rw [if_pos (by rw [hen]; rfl)]
  rw [normalizeTagsLLM_hit cfg.gemini cfg.tagIndex.canonical rawTags note
    st.llm r hcache]

theorem classifyStage_thrown (cfg : Cfg) (sha line id : String)
    (rawTags : List String) (note msg : String) (st : RunState)
    (hen : cfg.llmEnabled = true)
    (hmiss : mapGet st.llm.cache (cacheKeyOf rawTags note) = none)
    (herr : cfg.gemini st.llm.calls = Except.error msg) :
    classifyStage cfg sha line id rawTags note [] st =
      (classifyDefaults [],
       { st with llm := { st.llm with calls := st.llm.calls + 1 },
                 errors := st.errors ++ [⟨id, sha, line, "llm_error:" ++ msg⟩] }) := by
  unfold classifyStage
  rw [if_pos (by rw [hen]; rfl)]
  rw [normalizeTagsLLM_thrown cfg.gemini cfg.tagIndex.canonical rawTags note
    msg st.llm hmiss herr]

theorem classifyStage_rejected (cfg : Cfg) (sha line id : String)
    (rawTags : List String) (note : String) (st : RunState) (raw : Option RawLLM)
    (hen : cfg.llmEnabled = true)
    (hmiss : mapGet st.llm.cache (cacheKeyOf rawTags note) = none)
    (hok : cfg.gemini st.llm.calls = Except.ok raw)
    (hsan : sanitizeResult raw cfg.tagIndex.canonical = none) :
    classifyStage cfg sha line id rawTags note [] st =
      (classifyDefaults [],
       { st with llm := { st.llm with calls := st.llm.calls + 1 } }) := by
  unfold classifyStage
  rw [if_pos (by rw [hen]; rfl)]
  rw [normalizeTagsLLM_rejected cfg.gemini cfg.tagIndex.canonical rawTags note
    st.llm raw hmiss hok hsan]

theorem classifyDefaults_nil :
    classifyDefaults [] = ⟨"uncategorized", [], 0, "fallback"⟩ := rfl

theorem writeStage_errors (cfg : Cfg) (c : Commit) (id ds : String) (hours : ℚ)
    (p : ParsedLine) (nm : Normalized) (st : RunState) :
    (writeStage cfg c id ds hours p nm st).errors = st.errors := by
  simp only [writeStage]
  split <;> rfl

theorem writeStage_errored (cfg : Cfg) (c : Commit) (id ds : String) (hours : ℚ)
    (p : ParsedLine) (nm : Normalized) (st : RunState) :
    (writeStage cfg c id ds hours p nm st).errored = st.errored := by
  simp only [writeStage]
  split <;> rfl

theorem writeStage_daily (cfg : Cfg) (c : Commit) (id ds : String) (hours : ℚ)
    (p : ParsedLine) (nm : Normalized) (st : RunState) :
    (mapGet (writeStage cfg c id ds hours p nm st).stores ds).getD []
      = (if hasId ((mapGet st.stores ds).getD []) id
          then (mapGet st.stores ds).getD []
          else ((mapGet st.stores ds).getD []) ++
            [{ id := id, atTime := c.dateStr, hours := hours,
               rawDateToken := p.dateToken, rawDurationToken := p.durationToken,
               rawTags := p.rawTags, rawTagMeta := p.tagMeta, rawNote := p.note,
               normalized := nm, repo := cfg.repo, commit := c.sha }]) := by
  simp only [writeStage]
  cases h : hasId ((mapGet st.stores ds).getD []) id with
  | true => rfl
  | false =>
    show (mapGet (mapSet st.stores ds _) ds).getD [] = _
    rw [mapGet_mapSet_self]
    rfl

/-- C6.  Cache short-circuit: when the exact serialized (raw tags, note)
pair is a key of the persisted cache, `normalizeTagsLLM` returns the
cached result with the state untouched (no external call); hence two
invocations in the same run with identical raw tags and note, the first
of which succeeds, issue exactly one external classification request and
both return the sanitized result. -/
theorem C6_cache_short_circuit :
    (∀ (gemini : Nat → Except String (Option RawLLM))
      (canonical rawTags : List String) (note : String) (st : LLMState)
      (r : LLMResult),
      mapGet st.cache (cacheKeyOf rawTags note) = some r →
      normalizeTagsLLM gemini canonical rawTags note st
        = (LLMOutcome.result r, st)) ∧
    (∀ (gemini : Nat → Except String (Option RawLLM))
      (canonical rawTags : List String) (note : String) (st : LLMState)
      (raw : Option RawLLM) (s : LLMResult),
      mapGet st.cache (cacheKeyOf rawTags note) = none →
      gemini st.calls = Except.ok raw →
      sanitizeResult raw canonical = some s →
      (normalizeTagsLLM gemini canonical rawTags note st).1
        = LLMOutcome.result s ∧
      (normalizeTagsLLM gemini canonical rawTags note
        (normalizeTagsLLM gemini canonical rawTags note st).2).1
        = LLMOutcome.result s ∧
      ((normalizeTagsLLM gemini canonical rawTags note
        (normalizeTagsLLM gemini canonical rawTags note st).2).2).calls
        = st.calls + 1) := by
  constructor
  · exact normalizeTagsLLM_hit
  · intro gemini canonical rawTags note st raw s hmiss hok hsan
    have h1 := normalizeTagsLLM_miss_ok gemini canonical rawTags note st raw s
      hmiss hok hsan
    have hhit := normalizeTagsLLM_hit gemini canonical rawTags note
      ⟨mapSet st.cache (cacheKeyOf rawTags note) s,
       appendSuggestions st.ledger s.suggestions, st.calls + 1⟩ s
      (mapGet_mapSet_self st.cache (cacheKeyOf rawTags note) s)
    refine ⟨by rw [h1], ?_, ?_⟩
    · rw [h1]
      show (normalizeTagsLLM gemini canonical rawTags note
        ⟨mapSet st.cache (cacheKeyOf rawTags note) s,
         appendSuggestions st.ledger s.suggestions, st.calls + 1⟩).1 = _
      rw [hhit]
    · rw [h1]
      show ((normalizeTagsLLM gemini canonical rawTags note
        ⟨mapSet st.cache (cacheKeyOf rawTags note) s,
         appendSuggestions st.ledger s.suggestions, st.calls + 1⟩).2).calls = _
      rw [hhit]

def gemOK : Nat → Except String (Option RawLLM) :=
  fun _ => Except.ok (some ⟨some "study", some [], some 1, []⟩)

theorem C6_cache_short_circuit_witness :
    (normalizeTagsLLM gemOK ["study"] ["zzz"] "note" ⟨[], [], 0⟩).1
      = LLMOutcome.result ⟨"study", [], 1, []⟩ ∧
    (normalizeTagsLLM gemOK ["study"] ["zzz"] "note"
      (normalizeTagsLLM gemOK ["study"] ["zzz"] "note" ⟨[], [], 0⟩).2).1
      = LLMOutcome.result ⟨"study", [], 1, []⟩ ∧
    ((normalizeTagsLLM gemOK ["study"] ["zzz"] "note"
      (normalizeTagsLLM gemOK ["study"] ["zzz"] "note" ⟨[], [], 0⟩).2).2).calls
      = 1 := by
  have h := C6_cache_short_circuit.2 gemOK ["study"] ["zzz"] "note" ⟨[], [], 0⟩
    (some ⟨some "study", some [], some 1, []⟩) ⟨"study", [], 1, []⟩
    (by decide) rfl (by decide)
  exact ⟨h.1, h.2.1, h.2.2⟩

/-- C7.  Fallback when disabled: with the classifier toggle off, a line
whose alias normalization is empty is stored with primary
`"uncategorized"`, empty secondary, confidence 0 and method
`"fallback"`, and the classifier state (hence the external call count
and the cache) is untouched. -/
theorem C7_fallback_when_disabled (cfg : Cfg) (c : Commit) (line : String)
    (st : RunState) (idx : Nat) (p : ParsedLine) (ds : String) (hours : ℚ)
    (hp : parseTimeLine line = some (ParseOutcome.ok p))
    (hd : resolveDateToken p.dateToken c.commitParts = some ds)
    (hh : parseDuration p.durationToken = some hours)
    (hnt : normalizeTags p.rawTags cfg.tagIndex = [])
    (hdis : cfg.llmEnabled = false)
    (hnew : hasId ((mapGet st.stores ds).getD []) (mkId c.sha idx) = false) :
    (processLine cfg c line st idx).1.llm = st.llm ∧
    (mapGet (processLine cfg c line st idx).1.stores ds).getD []
      = ((mapGet st.stores ds).getD []) ++
        [{ id := mkId c.sha idx, atTime := c.dateStr, hours := hours,
           rawDateToken := p.dateToken, rawDurationToken := p.durationToken,
           rawTags := p.rawTags, rawTagMeta := p.tagMeta, rawNote := p.note,
           normalized := ⟨"uncategorized", [], 0, "fallback"⟩,
           repo := cfg.repo, commit := c.sha }] := by
  rw [processLine_valid cfg c line st idx p ds hours hp hd hh, hnt]
  rw [classifyStage_disabled cfg c.sha line (mkId c.sha idx) p.rawTags p.note []
    { st with assigned := st.assigned ++ [mkId c.sha idx] } hdis]
  rw [writeStage_add cfg c (mkId c.sha idx) ds hours p (classifyDefaults [])
    { st with assigned := st.assigned ++ [mkId c.sha idx] } hnew]
  constructor
  · rfl
  · show (mapGet (mapSet st.stores ds _) ds).getD [] = _
    rw [mapGet_mapSet_self]
    rw [classifyDefaults_nil]
    rfl

theorem C7_fallback_when_disabled_witness :
    (processLine cfgW ⟨"ce", "2026-01-02T03:04:05+09:00", ⟨2026, 1, 2⟩, ""⟩
      "time: today 1h #zzz" st0W 0).1.llm = st0W.llm ∧
    (mapGet (processLine cfgW ⟨"ce", "2026-01-02T03:04:05+09:00", ⟨2026, 1, 2⟩, ""⟩
      "time: today 1h #zzz" st0W 0).1.stores "2026-01-02").getD []
      = ((mapGet st0W.stores "2026-01-02").getD []) ++
        [{ id := mkId "ce" 0, atTime := "2026-01-02T03:04:05+09:00",
           hours := ((1 : Nat) : ℚ),
           rawDateToken := "today", rawDurationToken := "1h",
           rawTags := ["zzz"], rawTagMeta := [], rawNote := "",
           normalized := ⟨"uncategorized", [], 0, "fallback"⟩,
           repo := "r", commit := "ce" }] := by
  have h := C7_fallback_when_disabled cfgW
    ⟨"ce", "2026-01-02T03:04:05+09:00", ⟨2026, 1, 2⟩, ""⟩
    "time: today 1h #zzz" st0W 0 ⟨"today", "1h", ["zzz"], [], ""⟩
    "2026-01-02" ((1 : Nat) : ℚ) (by decide) (by decide) (by decide) (by decide)
    rfl (by decide)
  exact h

/-- C10.  On a cache hit, `normalizeTagsLLM` returns the stored result
verbatim, without re-validating its `primary` against the canonical key
list supplied in the current call: even when the cached primary is not a
canonical key, the coordinator stores it as the entry's primary with
method `"llm"`, and no external call is made. -/
theorem C10_cache_hit_not_revalidated (cfg : Cfg) (c : Commit) (line : String)
    (st : RunState) (idx : Nat) (p : ParsedLine) (ds : String) (hours : ℚ)
    (r : LLMResult)
    (hp : parseTimeLine line = some (ParseOutcome.ok p))
    (hd : resolveDateToken p.dateToken c.commitParts = some ds)
    (hh : parseDuration p.durationToken = some hours)
    (hnt : normalizeTags p.rawTags cfg.tagIndex = [])
    (hen : cfg.llmEnabled = true)
    (hcache : mapGet st.llm.cache (cacheKeyOf p.rawTags p.note) = some r)
    (hnc : cfg.tagIndex.canonical.contains r.primary = false)
    (hnew : hasId ((mapGet st.stores ds).getD []) (mkId c.sha idx) = false) :
    (processLine cfg c line st idx).1.llm = st.llm ∧
    (mapGet (processLine cfg c line st idx).1.stores ds).getD []
      = ((mapGet st.stores ds).getD []) ++
        [{ id := mkId c.sha idx, atTime := c.dateStr, hours := hours,
           rawDateToken := p.dateToken, rawDurationToken := p.durationToken,
           rawTags := p.rawTags, rawTagMeta := p.tagMeta, rawNote := p.note,
           normalized := ⟨r.primary, r.secondary,
             (if r.confidence = 0 then 0 else r.confidence), "llm"⟩,
           repo := cfg.repo, commit := c.sha }] := by
  rw [processLine_valid cfg c line st idx p ds hours hp hd hh, hnt]
  rw [classifyStage_hit cfg c.sha line (mkId c.sha idx) p.rawTags p.note
    { st with assigned := st.assigned ++ [mkId c.sha idx] } r hen hcache]
  rw [writeStage_add cfg c (mkId c.sha idx) ds hours p
    ⟨r.primary, r.secondary, (if r.confidence = 0 then 0 else r.confidence), "llm"⟩
    { st with assigned := st.assigned ++ [mkId c.sha idx] } hnew]
  constructor
  · rfl
  · show (mapGet (mapSet st.stores ds _) ds).getD [] = _
    rw [mapGet_mapSet_self]
    rfl

def cfgHit : Cfg :=
  { tagIndex := loadTags ⟨none, [("study", [])]⟩, llmEnabled := true, repo := "r",
    gemini := fun _ => Except.error "unused" }

def stHit : RunState :=
  ⟨[], [], 0, 0, 0, ⟨[(cacheKeyOf ["zzz"] "", ⟨"ghost", [], 1, []⟩)], [], 0⟩, []⟩

def cCE : Commit :=
  ⟨"ce", "2026-01-02T03:04:05+09:00", ⟨2026, 1, 2⟩, ""⟩

theorem C10_cache_hit_not_revalidated_witness :
    (processLine cfgHit cCE "time: today 1h #zzz" stHit 0).1.llm = stHit.llm ∧
    (mapGet (processLine cfgHit cCE "time: today 1h #zzz" stHit 0).1.stores
      "2026-01-02").getD []
      = ((mapGet stHit.stores "2026-01-02").getD []) ++
        [{ id := mkId "ce" 0, atTime := "2026-01-02T03:04:05+09:00",
           hours := ((1 : Nat) : ℚ),
           rawDateToken := "today", rawDurationToken := "1h",
           rawTags := ["zzz"], rawTagMeta := [], rawNote := "",
           normalized := ⟨"ghost", [],
             (if (1 : ℚ) = 0 then 0 else (1 : ℚ)), "llm"⟩,
           repo := "r", commit := "ce" }] := by
  have h := C10_cache_hit_not_revalidated cfgHit cCE "time: today 1h #zzz" stHit 0
    ⟨"today", "1h", ["zzz"], [], ""⟩ "2026-01-02" ((1 : Nat) : ℚ)
    ⟨"ghost", [], 1, []⟩ (by decide) (by decide) (by decide) (by decide) rfl
    (by decide) (by decide) (by decide)
  exact h

/-- C3 as stated is falsified by the code: a sanitization rejection
(primary not a canonical key) records no ErrorLog entry at all, and no
classifier failure of any kind increments the run-summary errored
counter.  Below, a concrete line whose classifier response has a
non-canonical primary is processed: the rejection happens
(`LLMOutcome.rejected`), the error log stays empty, `errored` stays 0,
yet the line degrades to `"uncategorized"`/`"fallback"` as claimed. -/
theorem C3_classifier_failure_counterexample :
    (normalizeTagsLLM (fun _ => Except.ok (some ⟨some "junk", some [], some 1, []⟩))
      ["study"] ["zzz"] "" ⟨[], [], 0⟩).1 = LLMOutcome.rejected ∧
    (processLine
      ⟨loadTags ⟨none, [("study", [])]⟩, true, "r",
        fun _ => Except.ok (some ⟨some "junk", some [], some 1, []⟩)⟩
      cCE "time: today 1h #zzz" st0W 0).1.errors = [] ∧
    (processLine
      ⟨loadTags ⟨none, [("study", [])]⟩, true, "r",
        fun _ => Except.ok (some ⟨some "junk", some [], some 1, []⟩)⟩
      cCE "time: today 1h #zzz" st0W 0).1.errored = 0 ∧
    ((mapGet (processLine
      ⟨loadTags ⟨none, [("study", [])]⟩, true, "r",
        fun _ => Except.ok (some ⟨some "junk", some [], some 1, []⟩)⟩
      cCE "time: today 1h #zzz" st0W 0).1.stores "2026-01-02").getD []).map
        (fun e => (e.normalized.primary, e.normalized.method))
      = [("uncategorized", "fallback")] :=
  ⟨by decide, by decide, by decide, by decide⟩

/-- C3 amended.  A thrown classifier failure (transport error, non-JSON
payload, missing response text) records exactly one ErrorLog entry with
reason `llm_error:<detail>`; a sanitization rejection records nothing;
neither increments the run-summary errored counter; in both cases the
line continues non-fatally and is stored with primary `"uncategorized"`,
confidence 0 and method `"fallback"`. -/
theorem C3_classifier_failure_behavior (cfg : Cfg) (c : Commit) (line : String)
    (st : RunState) (idx : Nat) (p : ParsedLine) (ds : String) (hours : ℚ)
    (hp : parseTimeLine line = some (ParseOutcome.ok p))
    (hd : resolveDateToken p.dateToken c.commitParts = some ds)
    (hh : parseDuration p.durationToken = some hours)
    (hnt : normalizeTags p.rawTags cfg.tagIndex = [])
    (hen : cfg.llmEnabled = true)
    (hmiss : mapGet st.llm.cache (cacheKeyOf p.rawTags p.note) = none) :
    (∀ msg, cfg.gemini st.llm.calls = Except.error msg →
      (processLine cfg c line st idx).1.errors =
        st.errors ++ [⟨mkId c.sha idx, c.sha, line, "llm_error:" ++ msg⟩] ∧
      (processLine cfg c line st idx).1.errored = st.errored ∧
      (hasId ((mapGet st.stores ds).getD []) (mkId c.sha idx) = false →
        (mapGet (processLine cfg c line st idx).1.stores ds).getD []
          = ((mapGet st.stores ds).getD []) ++
            [{ id := mkId c.sha idx, atTime := c.dateStr, hours := hours,
               rawDateToken := p.dateToken, rawDurationToken := p.durationToken,
               rawTags := p.rawTags, rawTagMeta := p.tagMeta, rawNote := p.note,
               normalized := ⟨"uncategorized", [], 0, "fallback"⟩,
               repo := cfg.repo, commit := c.sha }])) ∧
    (∀ raw, cfg.gemini st.llm.calls = Except.ok raw →
      sanitizeResult raw cfg.tagIndex.canonical = none →
      (processLine cfg c line st idx).1.errors = st.errors ∧
      (processLine cfg c line st idx).1.errored = st.errored ∧
      (hasId ((mapGet st.stores ds).getD []) (mkId c.sha idx) = false →
        (mapGet (processLine cfg c line st idx).1.stores ds).getD []
          = ((mapGet st.stores ds).getD []) ++
            [{ id := mkId c.sha idx, atTime := c.dateStr, hours := hours,
               rawDateToken := p.dateToken, rawDurationToken := p.durationToken,
               rawTags := p.rawTags, rawTagMeta := p.tagMeta, rawNote := p.note,
               normalized := ⟨"uncategorized", [], 0, "fallback"⟩,
               repo := cfg.repo, commit := c.sha }])) := by
  constructor
  · intro msg herr
    rw [processLine_valid cfg c line st idx p ds hours hp hd hh, hnt]
    rw [classifyStage_thrown cfg c.sha line (mkId c.sha idx) p.rawTags p.note msg
      { st with assigned := st.assigned ++ [mkId c.sha idx] } hen hmiss herr]
    refine ⟨?_, ?_, ?_⟩
    · rw [writeStage_errors]
    · rw [writeStage_errored]
    · intro hfalse
      rw [writeStage_daily]
      dsimp only
      rw [hfalse]
      rfl
  · intro raw hok hsan
    rw [processLine_valid cfg c line st idx p ds hours hp hd hh, hnt]
    rw [classifyStage_rejected cfg c.sha line (mkId c.sha idx) p.rawTags p.note
      { st with assigned := st.assigned ++ [mkId c.sha idx] } raw hen hmiss hok hsan]
    refine ⟨?_, ?_, ?_⟩
    · rw [writeStage_errors]
    · rw [writeStage_errored]
    · intro hfalse
      rw [writeStage_daily]
      dsimp only
      rw [hfalse]
      rfl

def cfgTH : Cfg :=
  { tagIndex := loadTags ⟨none, [("study", [])]⟩, llmEnabled := true, repo := "r",
    gemini := fun _ => Except.error "boom" }

theorem C3_classifier_failure_behavior_witness :
    (processLine cfgTH cCE "time: today 1h #zzz" st0W 0).1.errors
      = st0W.errors ++
        [⟨mkId cCE.sha 0, cCE.sha, "time: today 1h #zzz", "llm_error:boom"⟩] ∧
    (processLine cfgTH cCE "time: today 1h #zzz" st0W 0).1.errored
      = st0W.errored := by
  have h := (C3_classifier_failure_behavior cfgTH cCE "time: today 1h #zzz" st0W 0
    ⟨"today", "1h", ["zzz"], [], ""⟩ "2026-01-02" ((1 : Nat) : ℚ)
    (by decide) (by decide) (by decide) (by decide) rfl (by decide)).1 "boom" rfl
  exact ⟨h.1, h.2.1⟩

end TimeTrack
